import Mathlib

/-!
Verification of the pavlenko.tech static-site build pipeline.

This file gives a shallow embedding, in Lean, of the content-to-page
rendering pipeline of the repository: the paginators
(`scripts/lib/siteBuilder.js` `paginateItems` and the inline index-page
loop of `src/engine/content.js` `generatePages`), the reading-time
estimator (`scripts/lib/markdownProcessor.js` `calculateReadingTime` and
the inline computation in `loadPosts`), the tag-index builder
(`scripts/lib/siteBuilder.js` `extractTags`), the custom marked link
renderer, and the home-grown template engine of `src/engine/content.js`
(`processExtends`, `processConditionals`, `evaluateCondition`,
`processLoops`, `processVariables`) together with `postProcessHtml` of
the static-site generator script.

JavaScript strings are modelled as Lean `String`/`List Char`; JavaScript
values occurring in template contexts are modelled by the inductive
`JVal`; JavaScript objects are association lists with JS assignment
semantics (update in place, insertion order preserved).  Recursive
template resolution is modelled with explicit fuel; running out of fuel
(`RenderErr.outOfFuel`) marks non-termination of the source recursion.
-/

/-! ### JavaScript value model -/

/-- Model of the JavaScript values that appear in template data
contexts: `undefined`, `null`, booleans, (integer) numbers, strings,
arrays and plain objects.  Objects are association lists in insertion
order. -/
inductive JVal where
  | undefined : JVal
  | null : JVal
  | bool : Bool → JVal
  | num : Int → JVal
  | str : String → JVal
  | arr : List JVal → JVal
  | obj : List (String × JVal) → JVal
deriving Repr, BEq, Inhabited

/-- Truthiness of a JavaScript value (`Boolean(v)`): `undefined`,
`null`, `false`, `0` and the empty string are falsy, everything else
(including empty arrays and objects) is truthy. -/
def truthy : JVal → Bool
  | .undefined => false
  | .null => false
  | .bool b => b
  | .num n => n != 0
  | .str s => s ≠ ""
  | .arr _ => true
  | .obj _ => true

/-- Property access `v[k]` on a modelled value: own properties of plain
objects resolve, everything else yields `undefined` (built-in properties
such as `length` are outside the model). -/
def jsGet : JVal → String → JVal
  | .obj fields, k =>
    match fields.find? (fun f => f.1 == k) with
    | some f => f.2
    | none => .undefined
  | _, _ => .undefined

/-- Key-presence test `k in data` for the root context object (used to
model which identifiers become parameters of the dynamically built
condition function). -/
def hasKey : JVal → String → Bool
  | .obj fields, k => fields.any (fun f => f.1 == k)
  | _, _ => false

/-- Assignment `obj[k] = v` on an association list, with JavaScript
object semantics: an existing key keeps its position and gets the new
value, a new key is appended. -/
def jsSetFields (fields : List (String × JVal)) (k : String) (v : JVal) :
    List (String × JVal) :=
  if fields.any (fun f => f.1 == k) then
    fields.map (fun f => if f.1 == k then (f.1, v) else f)
  else
    fields ++ [(k, v)]

/-- Assignment on a modelled object value (spread-plus-override
`{ ...data, [k]: v }` produces the same association list). -/
def jsSet : JVal → String → JVal → JVal
  | .obj fields, k, v => .obj (jsSetFields fields k v)
  | _, k, v => .obj [(k, v)]

/-- Test for `undefined`. -/
def JVal.isUndefined : JVal → Bool
  | .undefined => true
  | _ => false

/-- Test for `undefined` or `null` (the values JavaScript's
`value !== undefined && value !== null` guard rejects). -/
def JVal.isUndefOrNull : JVal → Bool
  | .undefined => true
  | .null => true
  | _ => false

/-- Elements of an array value (empty for non-arrays). -/
def JVal.arrElems : JVal → List JVal
  | .arr xs => xs
  | _ => []

/-- Array test `Array.isArray(v)`. -/
def JVal.isArr : JVal → Bool
  | .arr _ => true
  | _ => false

/-! ### Character and string helpers

The JavaScript notions of whitespace (`\s`, `String.prototype.trim`) and
word characters (`\w`) are modelled for the ASCII range, which is all
the source's templates and content use. -/

/-- Whitespace in the sense of the JavaScript `\s` class, restricted to
ASCII: space, tab, newline, carriage return, vertical tab, form feed. -/
def isWsChar (c : Char) : Bool :=
  c == ' ' || c == '\t' || c == '\n' || c == '\r' ||
  c == Char.ofNat 11 || c == Char.ofNat 12

/-- Word characters in the sense of the JavaScript `\w` class:
`[A-Za-z0-9_]`. -/
def isWordChar (c : Char) : Bool :=
  ('a' ≤ c && c ≤ 'z') || ('A' ≤ c && c ≤ 'Z') ||
  ('0' ≤ c && c ≤ '9') || c == '_'

/-- Removal of leading whitespace (`\s*` at the start). -/
def trimLeftChars (s : List Char) : List Char :=
  s.dropWhile isWsChar

/-- JavaScript `String.prototype.trim`: strip whitespace from both
ends. -/
def jsTrimChars (s : List Char) : List Char :=
  ((s.dropWhile isWsChar).reverse.dropWhile isWsChar).reverse

/-- String-level `trim`. -/
def jsTrim (s : String) : String :=
  String.mk (jsTrimChars s.data)

/-- Joining strings with a separator (`Array.prototype.join` /
template-literal interpolation). -/
def joinWith (sep : String) : List String → String
  | [] => ""
  | [x] => x
  | x :: xs => x ++ sep ++ joinWith sep xs

/-- Splitting worker for `String.prototype.split` with a one-character
separator, keeping empty parts. -/
def splitOnCharAux (sep : Char) : List Char → List Char → List (List Char)
  | acc, [] => [acc.reverse]
  | acc, c :: cs =>
    if c == sep then acc.reverse :: splitOnCharAux sep [] cs
    else splitOnCharAux sep (c :: acc) cs

/-- JavaScript `s.split(sep)` for a one-character separator. -/
def splitOnChar (sep : Char) (s : List Char) : List (List Char) :=
  splitOnCharAux sep [] s

/-- Tokenizer worker: accumulates the current token (reversed) and emits
it at each whitespace run. -/
def wsTokensAux : List Char → List Char → List (List Char)
  | acc, [] => if acc.isEmpty then [] else [acc.reverse]
  | acc, c :: cs =>
    if isWsChar c then
      if acc.isEmpty then wsTokensAux [] cs else acc.reverse :: wsTokensAux [] cs
    else wsTokensAux (c :: acc) cs

/-- Splitting on whitespace runs, as `"a  b".split(/\s+/)` does after a
trim: the maximal non-whitespace tokens in order. -/
def wsTokens (s : List Char) : List (List Char) :=
  wsTokensAux [] s

/-- Length of `text.split(/\s+/)` for an already-trimmed JavaScript
string: splitting the empty string yields `[""]` (length 1), otherwise
the number of whitespace-separated tokens. -/
def jsSplitWsLength (s : List Char) : Nat :=
  match s with
  | [] => 1
  | _ :: _ => (wsTokens s).length

/-- Ceiling division on naturals, the value of `Math.ceil(n / p)` for
natural `n` and positive `p`. -/
def ceilDiv (n p : Nat) : Nat :=
  (n + p - 1) / p

/-! ### Substring machinery

`startsList pat s` models "`pat` is a prefix of `s`" and `occursIn pat
s` models "`pat` occurs as a contiguous substring of `s`"; both are
executable so concrete instances evaluate by `decide`. -/

/-- Prefix test on character lists. -/
def startsList : List Char → List Char → Bool
  | [], _ => true
  | _ :: _, [] => false
  | p :: ps, c :: cs => p == c && startsList ps cs

/-- Substring occurrence test on character lists. -/
def occursIn (pat : List Char) : List Char → Bool
  | [] => startsList pat []
  | c :: cs => startsList pat (c :: cs) || occursIn pat cs

/-! ### Reading time

Source: `scripts/lib/markdownProcessor.js`, `calculateReadingTime`, and
the inline computation in `src/engine/content.js` `loadPosts`. -/

/-- Word count of `text.trim().split(/\s+/).length` in JavaScript. -/
def jsWordCount (text : String) : Nat :=
  jsSplitWsLength (jsTrimChars text.data)

/-- Embedding of `calculateReadingTime(text, wordsPerMinute = 200)` from
`scripts/lib/markdownProcessor.js`: falsy (empty) text yields 1,
otherwise `Math.max(1, Math.ceil(words / wordsPerMinute))` where `words`
is the whitespace-split token count of the trimmed raw text.  No markup
stripping happens in this function. -/
def calculateReadingTime (text : String) (wordsPerMinute : Nat) : Nat :=
  if text = "" then 1
  else max 1 (ceilDiv (jsWordCount text) wordsPerMinute)

/-- Embedding of the inline reading-time computation of
`src/engine/content.js` `loadPosts`:
`Math.ceil(body.trim().split(/\s+/).length / 200)` with no explicit
minimum and no empty-body guard. -/
def contentJsReadingTime (body : String) : Nat :=
  ceilDiv (jsWordCount body) 200

/-- Splitting helper: `splitAtChar stop s` finds the first occurrence of
`stop` in `s` and returns the part before it and the part after it, or
`none` when `stop` does not occur. -/
def splitAtChar (stop : Char) (s : List Char) : Option (List Char × List Char) :=
  match s.dropWhile (fun d => d != stop) with
  | [] => none
  | _ :: rest => some (s.takeWhile (fun d => d != stop), rest)

theorem splitAtChar_length_lt (stop : Char) (s pre r : List Char)
    (h : splitAtChar stop s = some (pre, r)) : r.length < s.length := by
  unfold splitAtChar at h
  rcases hdw : List.dropWhile (fun d => d != stop) s with _ | ⟨a, rest⟩ <;> rw [hdw] at h
  · exact absurd h (by simp)
  · have hl := (List.dropWhile_sublist (l := s) (fun d => d != stop)).length_le
    rw [hdw] at hl
    simp only [List.length_cons] at hl
    cases h
    omega

/-- Modelled from the spec: removal of HTML tags from the body before
word counting (the `cleanText.replace` chain of the client-side reading
time variant): a `<` followed by a later `>` is removed together with
everything between; a `<` with no closing `>` is kept.  (Fuel equal to
the input length bounds the scan.) -/
def stripTagsGo : Nat → List Char → List Char
  | 0, s => s
  | _ + 1, [] => []
  | f + 1, c :: cs =>
    if c = '<' then
      match splitAtChar '>' cs with
      | none => c :: stripTagsGo f cs
      | some (_, rest) => stripTagsGo f rest
    else c :: stripTagsGo f cs

def stripTags (s : List Char) : List Char :=
  stripTagsGo s.length s

/-- Markdown image/link tail parser: for the input that follows a `[`,
match `text](url)` and return the bracketed text and the rest after the
closing parenthesis. -/
def mdTarget (cs : List Char) : Option (List Char × List Char) :=
  match splitAtChar ']' cs with
  | none => none
  | some (text, r1) =>
    if r1.head? = some '(' then
      match splitAtChar ')' r1.tail with
      | none => none
      | some (_, r3) => some (text, r3)
    else none

theorem mdTarget_length_lt (cs t r : List Char) (h : mdTarget cs = some (t, r)) :
    r.length < cs.length := by
  unfold mdTarget at h
  rcases h1 : splitAtChar ']' cs with _ | ⟨text, r1⟩ <;> rw [h1] at h
  · exact absurd h (by simp)
  · have hl1 := splitAtChar_length_lt ']' cs text r1 h1
    dsimp only at h
    by_cases hh : r1.head? = some '('
    · rw [if_pos hh] at h
      rcases h2 : splitAtChar ')' r1.tail with _ | ⟨u, r3⟩ <;> rw [h2] at h
      · exact absurd h (by simp)
      · have hl2 := splitAtChar_length_lt ')' r1.tail u r3 h2
        have ht : r1.tail.length ≤ r1.length := by
          cases r1 <;> simp
        simp only [Option.some.injEq, Prod.mk.injEq] at h
        obtain ⟨rfl, rfl⟩ := h
        omega
    · rw [if_neg hh] at h
      exact absurd h (by simp)

/-- Modelled from the spec: removal of Markdown image markup
`![alt](url)` from the body before word counting. -/
def stripImagesGo : Nat → List Char → List Char
  | 0, s => s
  | _ + 1, [] => []
  | f + 1, '!' :: '[' :: cs =>
    (match mdTarget cs with
     | some (_, rest) => stripImagesGo f rest
     | none => '!' :: stripImagesGo f ('[' :: cs))
  | f + 1, c :: cs => c :: stripImagesGo f cs

def stripImages (s : List Char) : List Char :=
  stripImagesGo s.length s

/-- Modelled from the spec: replacement of Markdown link markup
`[text](url)` by its text before word counting. -/
def stripLinksGo : Nat → List Char → List Char
  | 0, s => s
  | _ + 1, [] => []
  | f + 1, '[' :: cs =>
    (match mdTarget cs with
     | some (text, rest) => text ++ stripLinksGo f rest
     | none => '[' :: stripLinksGo f cs)
  | f + 1, c :: cs => c :: stripLinksGo f cs

def stripLinks (s : List Char) : List Char :=
  stripLinksGo s.length s

/-- Modelled from the spec: emphasis-marker characters removed by the
spec's word count (`#`, `*`, `_`, `~` and the backquote). -/
def isEmphChar (c : Char) : Bool :=
  c == '#' || c == '*' || c == '_' || c == '~' || c == Char.ofNat 96

/-- Modelled from the spec: the reading-time word count the
specification describes, "computed on the Markdown body with HTML tags,
image/link markup, and single-character emphasis markers stripped before
splitting on whitespace".  The cited server-side functions do not
perform this stripping; the client-side variant does. -/
def specWordCount (body : String) : Nat :=
  (wsTokens ((stripLinks (stripImages (stripTags body.data))).filter
    (fun c => !isEmphChar c))).length

/-- Modelled from the spec: reading time as the specification defines
it, `ceil(wordCount / wordsPerMinute)` with a minimum of 1 over the
stripped word count. -/
def specReadingTime (body : String) (wordsPerMinute : Nat) : Nat :=
  max 1 (ceilDiv (specWordCount body) wordsPerMinute)

/-! ### Slug derivation and the post-page map

Source: `src/engine/content.js` `loadPosts` (slug creation) and
`generatePages` (the `this.pages[post.url] = ...` assignments). -/

/-- Model of the `slugify` library call
`slugify(basename, \x7b lower: true, strict: true \x7d)` for ASCII
filenames: lowercase, spaces to hyphens, all characters other than
letters, digits and hyphens removed. -/
def slugifyLS (s : String) : String :=
  String.mk (((s.data.map Char.toLower).map
    (fun c => if c = ' ' then '-' else c)).filter
    (fun c => ('a' ≤ c && c ≤ 'z') || ('0' ≤ c && c ≤ '9') || c == '-'))

/-- Minimal Document record for the claims about tag indexing and
output-path collisions: the fields of the post objects built by
`loadPosts` that those claims depend on. -/
structure Post where
  slug : String
  title : String
  tags : List String
deriving Repr, DecidableEq

/-- Post URL as built in `loadPosts`: `/posts/<slug>`. -/
def postUrl (p : Post) : String :=
  "/posts/" ++ p.slug

/-- Embedding of the per-post page assignments of `generatePages`
(`this.pages[post.url] = \x7b ... post ... \x7d`): a fold over the posts
that assigns into the pages object with JavaScript semantics.  Two posts
with the same URL silently overwrite: the later assignment replaces the
value at the existing key, and no error of any kind is raised (the
function is total and returns the final map). -/
def buildPostPages (posts : List Post) : List (String × Post) :=
  posts.foldl
    (fun pages post =>
      if pages.any (fun f => f.1 == postUrl post) then
        pages.map (fun f => if f.1 == postUrl post then (f.1, post) else f)
      else
        pages ++ [(postUrl post, post)])
    []

/-! ### Tag index

Source: `scripts/lib/siteBuilder.js` `extractTags` (and the equivalent
aggregation in `src/engine/content.js` `loadPosts`). -/

/-- Append a post to the bucket of one tag, mirroring
`if (!tags[tag]) tags[tag] = []; tags[tag].push(post)` on an
association list with JS object semantics: an existing key (keys are
unique by construction) keeps its position and its bucket grows at the
end; a new key is appended. -/
def tagPush : List (String × List Post) → String → Post → List (String × List Post)
  | [], t, p => [(t, [p])]
  | f :: fs, t, p =>
    if f.1 = t then (f.1, f.2 ++ [p]) :: fs else f :: tagPush fs t p

/-- Embedding of `extractTags(posts)` from `scripts/lib/siteBuilder.js`:
`posts.reduce(...)`, pushing each post onto the bucket of each of its
tags in order.  Tag names are compared byte-for-byte (JS property keys);
the model uses `String` equality. -/
def extractTags (posts : List Post) : List (String × List Post) :=
  posts.foldl (fun tags post => post.tags.foldl (fun m t => tagPush m t post) tags) []

/-- Bucket of a tag in the index (`tags[t]`, empty when absent). -/
def tagBucket (m : List (String × List Post)) (t : String) : List Post :=
  match m.find? (fun f => f.1 == t) with
  | some f => f.2
  | none => []

/-! ### Paginator

Source: `scripts/lib/siteBuilder.js` `paginateItems` and the paginated
index-page loop of `src/engine/content.js` `generatePages`. -/

/-- Page record produced by `paginateItems`: 1-indexed page number, the
slice of items for the page, the pagination HTML (delegated to
`generatePagination`, modelled as an injected function, and empty when
there is a single page), and the first-page marker. -/
structure PageSB (α : Type) where
  page : Nat
  itemsForPage : List α
  pagination : String
  isFirstPage : Bool
deriving Repr, DecidableEq

/-- Embedding of `paginateItems(items, options)` from
`scripts/lib/siteBuilder.js`: `totalPages = Math.ceil(items.length /
perPage)`, then one page object per `page` in `1..totalPages` with
`itemsForPage = items.slice((page-1)*perPage, page*perPage)`.  With zero
items, `totalPages = 0` and the loop body never runs, so the result is
the empty list of pages.  (For `perPage = 0` the source loops forever on
`totalPages = Infinity`; the embedding is used only for `perPage ≥ 1`.) -/
def paginateItems (items : List α) (perPage : Nat)
    (genPagination : Nat → Nat → String) : List (PageSB α) :=
  let totalPages := ceilDiv items.length perPage
  (List.range totalPages).map (fun i =>
    { page := i + 1
      itemsForPage := (items.drop (i * perPage)).take perPage
      pagination := if totalPages > 1 then genPagination (i + 1) totalPages else ""
      isFirstPage := i + 1 == 1 })

/-- Pagination object built by the index-page loop of
`src/engine/content.js` `generatePages`: `prevPage` is a URL when
`page > 1` and `null` otherwise, `nextPage` is a URL when
`page < totalPages` and `null` otherwise. -/
structure Pagination where
  currentPage : Nat
  totalPages : Nat
  prevPage : Option String
  nextPage : Option String
deriving Repr, DecidableEq

/-- Embedding of the pagination object construction in `generatePages`. -/
def mkPagination (page totalPages : Nat) : Pagination :=
  { currentPage := page
    totalPages := totalPages
    prevPage :=
      if page > 1 then some (if page = 2 then "/" else "/page/" ++ toString (page - 1))
      else none
    nextPage :=
      if page < totalPages then some ("/page/" ++ toString (page + 1))
      else none }

/-- Home/index page entry of `generatePages`: output key (`/` for page
1, `/page/N` after), the slice of posts and the pagination object. -/
structure IndexEntry (α : Type) where
  posts : List α
  pagination : Pagination
deriving Repr, DecidableEq

/-- Embedding of the paginated index-page loop of `generatePages`:
`totalPages = Math.ceil(posts.length / postsPerPage)`, pages numbered
`1..totalPages`, each holding `posts.slice(start, end)`.  With zero
posts the loop body never runs and no index page is created (not even
an empty page 1). -/
def indexPages (posts : List α) (postsPerPage : Nat) :
    List (String × IndexEntry α) :=
  let totalPages := ceilDiv posts.length postsPerPage
  (List.range totalPages).map (fun i =>
    let page := i + 1
    (if page = 1 then "/" else "/page/" ++ toString page,
     { posts := (posts.drop ((page - 1) * postsPerPage)).take postsPerPage
       pagination := mkPagination page totalPages }))

/-! ### Link renderer

Source: the custom `marked` renderer `link(href, title, text)` defined
identically in `scripts/lib/markdownProcessor.js`,
`src/engine/content.js`, `scripts/static-site-generator.js` and the
unnamed generator module. -/

/-- Title attribute part of the rendered anchor: `title ? \x60
title="$\x7btitle\x7d"\x60 : ''` (a missing or empty title yields
nothing). -/
def titleAttr : Option String → String
  | some t => if t ≠ "" then " title=\"" ++ t ++ "\"" else ""
  | none => ""

/-- JavaScript `s.startsWith(pre)` as an executable prefix test. -/
def jsStartsWith (pre s : String) : Bool :=
  startsList pre.data s.data

/-- Target attribute part of the rendered anchor: the source tests
`href.startsWith('http')`, nothing else. -/
def targetAttr (href : String) : String :=
  if jsStartsWith "http" href then " target=\"_blank\" rel=\"noopener noreferrer\""
  else ""

/-- Embedding of the `link` renderer: `<a href="...">` with optional
title attribute and, for `href` starting with `http`, the
`target="_blank" rel="noopener noreferrer"` attributes. -/
def link (href : Option String) (title : Option String) (text : String) : String :=
  let h := href.getD ""
  "<a href=\"" ++ h ++ "\"" ++ titleAttr title ++ targetAttr h ++ ">" ++ text ++ "</a>"

/-- Modelled from the spec: "links whose target starts with a URI
scheme" — a scheme per RFC 3986 is a letter followed by letters, digits,
`+`, `-` or `.`, terminated by a colon. -/
def isSchemeChar (c : Char) : Bool :=
  c.isAlpha || c.isDigit || c == '+' || c == '-' || c == '.'

/-- Modelled from the spec: test whether a link target starts with a URI
scheme. -/
def specStartsWithUriScheme (s : String) : Bool :=
  match s.data with
  | [] => false
  | c :: rest => c.isAlpha && ((rest.dropWhile isSchemeChar).head? == some ':')

/-! ### Lemmas about substring occurrence

These support reasoning about which substrings the rendered anchor can
contain: a pattern that avoids a separator character occurs in
`a ++ sep :: b` exactly when it occurs in `a` or in `b`. -/

theorem startsList_mono (p : List Char) :
    ∀ (a b : List Char), startsList p a = true → startsList p (a ++ b) = true := by
  induction p with
  | nil => intro a b _; simp [startsList]
  | cons q ps ih =>
    intro a b h
    cases a with
    | nil => simp [startsList] at h
    | cons d as =>
      simp only [List.cons_append, startsList, Bool.and_eq_true] at h ⊢
      exact ⟨h.1, ih as b h.2⟩

theorem startsList_of_sep (c : Char) (b : List Char) :
    ∀ (p a : List Char), c ∉ p → startsList p (a ++ c :: b) = true →
      startsList p a = true := by
  intro p
  induction p with
  | nil => intro a _ _; simp [startsList]
  | cons q ps ih =>
    intro a hc h
    cases a with
    | nil =>
      simp only [List.nil_append, startsList, Bool.and_eq_true] at h
      have hqc : q = c := beq_iff_eq.mp h.1
      exact absurd (List.mem_cons_self q ps) (hqc ▸ hc)
    | cons d as =>
      simp only [List.cons_append, startsList, Bool.and_eq_true] at h ⊢
      exact ⟨h.1, ih as (fun hm => hc (List.mem_cons_of_mem q hm)) h.2⟩

theorem startsList_sep_eq (p a b : List Char) (c : Char) (hc : c ∉ p) :
    startsList p (a ++ c :: b) = startsList p a := by
  by_cases h : startsList p a = true
  · rw [h, startsList_mono p a (c :: b) h]
  · by_cases h2 : startsList p (a ++ c :: b) = true
    · exact absurd (startsList_of_sep c b p a hc h2) h
    · rw [Bool.not_eq_true] at h h2
      rw [h, h2]

theorem occursIn_sep (p b : List Char) (c : Char) (hp : p ≠ []) (hc : c ∉ p) :
    ∀ (a : List Char), occursIn p (a ++ c :: b) = (occursIn p a || occursIn p b) := by
  intro a
  induction a with
  | nil =>
    cases p with
    | nil => exact absurd rfl hp
    | cons q ps =>
      simp only [List.nil_append, occursIn, startsList]
      have hq : (q == c) = false := by
        by_contra hne
        rw [Bool.not_eq_false, beq_iff_eq] at hne
        exact hc (List.mem_cons.mpr (Or.inl hne.symm))
      rw [hq]
      simp [occursIn, startsList]
  | cons d as ih =>
    have hs := startsList_sep_eq p (d :: as) b c hc
    simp only [List.cons_append] at hs
    simp only [List.cons_append, occursIn, List.append_eq, ih, hs, Bool.or_assoc]

theorem occursIn_mono_right (p a b : List Char) (h : occursIn p b = true) :
    occursIn p (a ++ b) = true := by
  induction a with
  | nil => simpa using h
  | cons d as ih =>
    simp only [List.cons_append, occursIn, Bool.or_eq_true]
    exact Or.inr ih

theorem occursIn_of_startsList (p s : List Char) (h : startsList p s = true) :
    occursIn p s = true := by
  cases s with
  | nil => simpa [occursIn] using h
  | cons d ds => simp [occursIn, h]

/-! ### Template engine: value stringification and filters

Source: `src/engine/content.js` (TemplateEngine part), `processVariables`. -/

/-- Left and right curly brace characters (kept out of string literals
for readability of the marker constants below). -/
def lbrace : Char := Char.ofNat 123

def rbrace : Char := Char.ofNat 125

/-- Single-quote character. -/
def squote : Char := Char.ofNat 39

/-- Stringification of a scalar value (`String(value)` for
non-containers).  Nested arrays inside arrays are outside the model (the
engine's contexts never stringify them). -/
def jsScalarString : JVal → String
  | .undefined => "undefined"
  | .null => "null"
  | .bool b => if b then "true" else "false"
  | .num n => toString n
  | .str s => s
  | .arr _ => ""
  | .obj _ => "[object Object]"

/-- JavaScript `String(value)` on modelled values.  Array elements are
joined with commas, `null`/`undefined` elements becoming empty, as
`Array.prototype.toString` does; objects print `[object Object]`. -/
def jsToString : JVal → String
  | .arr xs =>
    joinWith "," (xs.map (fun x => if x.isUndefOrNull then "" else jsScalarString x))
  | v => jsScalarString v

/-- Characters that `encodeURIComponent` leaves unescaped. -/
def isUnescapedUriChar (c : Char) : Bool :=
  c.isAlpha || c.isDigit || c == '-' || c == '_' || c == '.' || c == '!' ||
  c == '~' || c == '*' || c == squote || c == '(' || c == ')'

/-- Uppercase hexadecimal digit. -/
def hexDigit (n : Nat) : Char :=
  if n < 10 then Char.ofNat (48 + n) else Char.ofNat (55 + n)

/-- UTF-8 bytes of a character (the byte sequence `encodeURIComponent`
percent-encodes). -/
def utf8Bytes (c : Char) : List Nat :=
  let n := c.toNat
  if n < 128 then [n]
  else if n < 2048 then [192 + n / 64, 128 + n % 64]
  else if n < 65536 then [224 + n / 4096, 128 + (n / 64) % 64, 128 + n % 64]
  else [240 + n / 262144, 128 + (n / 4096) % 64, 128 + (n / 64) % 64, 128 + n % 64]

/-- Model of JavaScript `encodeURIComponent`. -/
def encodeURIComponentStr (s : String) : String :=
  String.mk (s.data.flatMap (fun c =>
    if isUnescapedUriChar c then [c]
    else (utf8Bytes c).flatMap (fun b => ['%', hexDigit (b / 16), hexDigit (b % 16)])))

/-- Resolution of a dot path in `processVariables`:
`value.split('.').reduce((obj, prop) => obj === undefined || obj === null
? '' : obj[prop], data)` — a missing step turns the accumulator into the
empty string, and property access on a non-object yields `undefined`. -/
def varResolve (data : JVal) (props : List String) : JVal :=
  props.foldl
    (fun acc prop =>
      match acc with
      | .undefined => .str ""
      | .null => .str ""
      | v => jsGet v prop)
    data

/-- Filter application of `processVariables`: each `|`-separated part
after the path names a filter (text before `:`); only
`encodeURIComponent` is supported and it is applied when the value is
not `undefined`. -/
def applyFilters (value : JVal) (parts : List String) : JVal :=
  parts.foldl
    (fun v part =>
      let filterName := String.mk ((splitOnChar ':' part.data).headD [])
      if filterName = "encodeURIComponent" && !v.isUndefined then
        .str (encodeURIComponentStr (jsToString v))
      else v)
    value

/-- Replacement callback of `processVariables` for one captured
`\x7b\x7b ... \x7d\x7d` marker: split off filters at `|`, resolve the
dot path against the data, apply filters, stringify (empty for
`undefined`/`null`). -/
def varReplace (data : JVal) (captured : String) : String :=
  let parts := (splitOnChar '|' captured.data).map (fun t => jsTrim (String.mk t))
  let path := parts.headD ""
  let value := varResolve data ((splitOnChar '.' path.data).map String.mk)
  let value := applyFilters value parts.tail
  if value.isUndefOrNull then "" else jsToString value

/-- Matcher for the interior of a `\x7b\x7b ... \x7d\x7d` variable
marker: after an opening double brace, the regex
`/\x7b\x7b *([^\x7b\x7d]+?) *\x7d\x7d/` matches a nonempty run of
non-brace characters followed by a closing double brace. -/
def tryVar (s : List Char) : Option (List Char × List Char) :=
  let run := s.takeWhile (fun c => c != lbrace && c != rbrace)
  let rest := s.dropWhile (fun c => c != lbrace && c != rbrace)
  if run.isEmpty then none
  else
    match rest with
    | r1 :: r2 :: rest2 =>
      if r1 = rbrace ∧ r2 = rbrace then some (run, rest2) else none
    | _ => none

/-- Scanner of `processVariables`: walk the template; at each opening
double brace try to match a variable marker and splice in the
replacement; otherwise copy one character and continue (the fuel is the
input length, which bounds the number of steps). -/
def processVarsGo (data : JVal) : Nat → List Char → List Char
  | 0, s => s
  | _ + 1, [] => []
  | f + 1, c :: rest =>
    if c = lbrace ∧ rest.head? = some lbrace then
      match tryVar rest.tail with
      | some (run, rest2) =>
        (varReplace data (String.mk (jsTrimChars run))).data ++ processVarsGo data f rest2
      | none => c :: processVarsGo data f rest
    else c :: processVarsGo data f rest

/-- Embedding of `processVariables(template, data)`: replace every
`\x7b\x7b path | filters \x7d\x7d` marker by the stringified resolved
value (empty string for unresolved paths). -/
def processVariables (template : String) (data : JVal) : String :=
  String.mk (processVarsGo data template.data.length template.data)

/-! ### Template engine: conditionals

Source: `src/engine/content.js` `processConditionals`,
`makeSafeCondition`, `evaluateCondition`,
`transformPropertyAccessToOptionalChaining`.  The dynamically built
condition function is modelled by an explicit grammar covering the
conditions the engine supports: identifiers, dot paths, `true`/`false`
and numeric literals, combined with `and`/`or` (rewritten `&&`/`||`).
Conditions outside this grammar make the JavaScript `Function`
constructor throw a `SyntaxError`, which the source catches and turns
into `false`; the model's parser returns `none` for them and the
evaluator likewise yields `false`. -/

/-- Atomic conditions: boolean/numeric literals, bare identifiers and
dot chains. -/
inductive CAtom where
  | litB : Bool → CAtom
  | litN : Nat → CAtom
  | ident : String → CAtom
  | chain : String → List String → CAtom
deriving Repr, DecidableEq

/-- Condition expressions: atoms combined with `&&` and `||`. -/
inductive CExpr where
  | atom : CAtom → CExpr
  | band : CExpr → CExpr → CExpr
  | bor : CExpr → CExpr → CExpr
deriving Repr, DecidableEq

/-- Splitting a token list at the first occurrence of a separator
token. -/
def splitAtTok (sep : List Char) (toks : List (List Char)) :
    Option (List (List Char) × List (List Char)) :=
  match toks.dropWhile (fun t => t != sep) with
  | [] => none
  | _ :: rest => some (toks.takeWhile (fun t => t != sep), rest)

theorem splitAtTok_length_lt (sep : List Char) (toks pre r : List (List Char))
    (h : splitAtTok sep toks = some (pre, r)) : r.length < toks.length := by
  unfold splitAtTok at h
  rcases hdw : List.dropWhile (fun t => t != sep) toks with _ | ⟨a, rest⟩ <;> rw [hdw] at h
  · exact absurd h (by simp)
  · have hl := (List.dropWhile_sublist (l := toks) (fun t => t != sep)).length_le
    rw [hdw] at hl
    simp only [List.length_cons] at hl
    cases h
    omega

/-- Splitting a character list at every dot (keeping empty parts), as
`path.split('.')` does. -/
def splitDot (s : List Char) : List (List Char) :=
  splitOnChar '.' s

/-- Conversion of a token to a number for numeric literals in
conditions. -/
def digitsToNat (t : List Char) : Nat :=
  t.foldl (fun acc c => acc * 10 + (c.toNat - 48)) 0

/-- Parsing one atomic condition token: `true`/`false`, a numeric
literal, a bare identifier of word characters, or a dot chain of word
identifiers.  Anything else is outside the supported grammar. -/
def parseAtom (t : List Char) : Option CAtom :=
  if t = "true".data then some (.litB true)
  else if t = "false".data then some (.litB false)
  else if !t.isEmpty && t.all Char.isDigit then some (.litN (digitsToNat t))
  else
    let parts := splitDot t
    if parts.all (fun p => !p.isEmpty && p.all isWordChar) then
      match parts with
      | [] => none
      | [single] => some (.ident (String.mk single))
      | root :: props => some (.chain (String.mk root) (props.map String.mk))
    else none

/-- Normalisation of `and`/`or` word operators to `&&`/`||`, the token
form of the `\band\b`/`\bor\b` replacements in `makeSafeCondition` and
`transformPropertyAccessToOptionalChaining`. -/
def opNormalize (toks : List (List Char)) : List (List Char) :=
  toks.map (fun t =>
    if t = "and".data then "&&".data
    else if t = "or".data then "||".data
    else t)

/-- Embedding of `makeSafeCondition(condition)`: the `and`/`or` word
operators become `&&`/`||` (modelled at whitespace-token level, which is
where the engine's grammar lives). -/
def makeSafeCondition (cond : String) : String :=
  joinWith " " ((opNormalize (wsTokens cond.data)).map String.mk)

/-- Parser for `&&`-chains (token lists free of `||`): each operand must
be a single atom token (fuel bounds the number of splits). -/
def parseAndGo : Nat → List (List Char) → Option CExpr
  | 0, _ => none
  | f + 1, toks =>
    match splitAtTok ("&&".data) toks with
    | none =>
      match toks with
      | [t] => (parseAtom t).map .atom
      | _ => none
    | some (l, r) =>
      match l with
      | [t] =>
        match parseAtom t, parseAndGo f r with
        | some a, some re => some (.band (.atom a) re)
        | _, _ => none
      | _ => none

def parseAndChain (toks : List (List Char)) : Option CExpr :=
  parseAndGo toks.length toks

/-- Parser for full conditions: `||` has the lowest precedence, `&&`
binds tighter.  The parse is right-associated; JavaScript's
left-associated `&&`/`||` produce the same truth value, which is all the
engine consumes. -/
def parseOrGo : Nat → List (List Char) → Option CExpr
  | 0, _ => none
  | f + 1, toks =>
    match splitAtTok ("||".data) toks with
    | none => parseAndChain toks
    | some (l, r) =>
      match parseAndChain l, parseOrGo f r with
      | some le, some re => some (.bor le re)
      | _, _ => none

def parseOrChain (toks : List (List Char)) : Option CExpr :=
  parseOrGo toks.length toks

/-- Parsing a condition string into the supported grammar. -/
def parseCond (cond : String) : Option CExpr :=
  match opNormalize (wsTokens cond.data) with
  | [] => none
  | toks => parseOrChain toks

/-- Optional-chaining resolution of a dot chain
(`root?.p1?.p2...` after `transformPropertyAccessToOptionalChaining`):
once the accumulator is `undefined` or `null` the whole chain is
`undefined`; otherwise ordinary property access continues. -/
def chainGet (v : JVal) (props : List String) : JVal :=
  props.foldl
    (fun acc p =>
      match acc with
      | .undefined => .undefined
      | .null => .undefined
      | w => jsGet w p)
    v

/-- Evaluation of an atomic condition against the data context.  A bare
identifier (also the root of a chain) that is not a key of the data
object is a `ReferenceError` in the dynamically built function —
modelled as `Except.error`, which the engine's catch-all turns into
`false`. -/
def evalCAtom (data : JVal) : CAtom → Except Unit JVal
  | .litB b => .ok (.bool b)
  | .litN n => .ok (.num (Int.ofNat n))
  | .ident n => if hasKey data n then .ok (jsGet data n) else .error ()
  | .chain root props =>
    if hasKey data root then .ok (chainGet (jsGet data root) props) else .error ()

/-- Evaluation of a condition expression with JavaScript short-circuit
semantics: `&&` returns its left value when falsy, `||` returns its left
value when truthy; errors propagate only from evaluated operands. -/
def evalCExpr (data : JVal) : CExpr → Except Unit JVal
  | .atom a => evalCAtom data a
  | .band l r => do
    let lv ← evalCExpr data l
    if truthy lv then evalCExpr data r else pure lv
  | .bor l r => do
    let lv ← evalCExpr data l
    if truthy lv then pure lv else evalCExpr data r

/-- Embedding of `evaluateCondition(condition, data)`: parse the
condition (a syntax error yields `false`), evaluate it (a reference
error yields `false`), and return the truthiness of the result. -/
def evaluateCondition (cond : String) (data : JVal) : Bool :=
  match parseCond cond with
  | none => false
  | some e =>
    match evalCExpr data e with
    | .error _ => false
    | .ok v => truthy v

/-- Test `/^\w+$/.test(condition.trim())` selecting the simple
bare-identifier branch of `processConditionals`. -/
def isSimpleWord (cond : String) : Bool :=
  let t := jsTrimChars cond.data
  !t.isEmpty && t.all isWordChar

/-- Replacement callback of `processConditionals` for one matched
conditional block: a bare identifier is looked up directly
(`data[condition.trim()]`), any other condition goes through
`makeSafeCondition` and `evaluateCondition`; a falsy or failing
condition selects the else content (empty when the block has no else
part).  Every error path of the source ends in the else content, so the
callback is total. -/
def condReplace (cond ifContent elseContent : String) (data : JVal) : String :=
  if isSimpleWord cond then
    if truthy (jsGet data (jsTrim cond)) then ifContent else elseContent
  else
    if evaluateCondition (makeSafeCondition cond) data then ifContent else elseContent

/-! ### Template engine: directive markers and generic scanning -/

/-- Literal directive markers of the engine's regexes (braces written
via their code points). -/
def ifMarker : List Char := [lbrace, '%', ' ', 'i', 'f', ' ']

def elseMarker : List Char :=
  [lbrace, '%', ' ', 'e', 'l', 's', 'e', ' ', '%', rbrace]

def endifMarker : List Char :=
  [lbrace, '%', ' ', 'e', 'n', 'd', 'i', 'f', ' ', '%', rbrace]

def forMarker : List Char := [lbrace, '%', ' ', 'f', 'o', 'r', ' ']

def endforMarker : List Char :=
  [lbrace, '%', ' ', 'e', 'n', 'd', 'f', 'o', 'r', ' ', '%', rbrace]

def includeMarker : List Char :=
  [lbrace, '%', ' ', 'i', 'n', 'c', 'l', 'u', 'd', 'e', ' ']

def extendsMarker : List Char :=
  [lbrace, '%', ' ', 'e', 'x', 't', 'e', 'n', 'd', 's', ' ']

def blockOpenMarker : List Char :=
  [lbrace, '%', ' ', 'b', 'l', 'o', 'c', 'k', ' ']

def endblockMarker : List Char :=
  [lbrace, '%', ' ', 'e', 'n', 'd', 'b', 'l', 'o', 'c', 'k', ' ', '%', rbrace]

/-- Closing ` %\x7d` of a directive. -/
def pctClose : List Char := [' ', '%', rbrace]

/-- Splitting at the first occurrence of a multi-character pattern:
`splitPat pat s = some (pre, post)` when `s = pre ++ pat ++ post` with
`pre` minimal. -/
def splitPat (pat : List Char) : List Char → Option (List Char × List Char)
  | [] => none
  | c :: cs =>
    if startsList pat (c :: cs) then some ([], (c :: cs).drop pat.length)
    else
      match splitPat pat cs with
      | some (pre, post) => some (c :: pre, post)
      | none => none

/-- Rendering errors of the fueled engine: `outOfFuel` marks
non-termination of the source's recursion, `loadFail` a template the
store cannot load (`loadTemplate` throwing). -/
inductive RenderErr where
  | outOfFuel : RenderErr
  | loadFail : String → RenderErr
deriving Repr, DecidableEq

/-! ### Template engine: conditional scanning

The regex `/\x7b% if (.+?) %\x7d([\s\S]*?)(?:\x7b% else
%\x7d([\s\S]*?))?\x7b% endif %\x7d/g` is modelled by a scanner: the
condition is the text up to the first ` %\x7d` (nonempty, no newline),
the body grows lazily until the first position carrying either an else
marker followed by a later endif marker, or an endif marker. -/

/-- Body scan for one conditional block: returns the if content, the
optional else content and the rest of the input after the endif
marker. -/
def scanCondBody (acc : List Char) :
    List Char → Option (List Char × Option (List Char) × List Char)
  | [] => none
  | c :: cs =>
    if startsList elseMarker (c :: cs) then
      match splitPat endifMarker ((c :: cs).drop elseMarker.length) with
      | some (ec, rest) => some (acc.reverse, some ec, rest)
      | none => scanCondBody (c :: acc) cs
    else if startsList endifMarker (c :: cs) then
      some (acc.reverse, none, (c :: cs).drop endifMarker.length)
    else scanCondBody (c :: acc) cs

/-- Matcher for one full conditional block, applied to the text after
the `\x7b% if ` marker. -/
def tryIfBlock (rest : List Char) :
    Option (List Char × List Char × Option (List Char) × List Char) :=
  match splitPat pctClose rest with
  | none => none
  | some (cond, r1) =>
    if cond.isEmpty || cond.contains '\n' || cond.contains '\r' then none
    else
      match scanCondBody [] r1 with
      | some (ifC, elseC, rest2) => some (cond, ifC, elseC, rest2)
      | none => none

/-- Scanner of `processConditionals`: replace every matched conditional
block through `condReplace` (a block without else part defaults its
else content to the empty string); replaced text is not rescanned. -/
def processCondGo (data : JVal) : Nat → List Char → List Char
  | 0, s => s
  | _ + 1, [] => []
  | f + 1, c :: cs =>
    if startsList ifMarker (c :: cs) then
      match tryIfBlock ((c :: cs).drop ifMarker.length) with
      | some (cond, ifC, elseC, rest) =>
        (condReplace (String.mk cond) (String.mk ifC) (String.mk (elseC.getD []))
            data).data ++ processCondGo data f rest
      | none => c :: processCondGo data f cs
    else c :: processCondGo data f cs

/-- Embedding of `processConditionals(template, data)`. -/
def processConditionals (template : String) (data : JVal) : String :=
  String.mk (processCondGo data template.data.length template.data)

/-! ### Template engine: loops

Source: `src/engine/content.js` `processLoops`, regex
`/\x7b% for (\w+) in (\w+) %\x7d([\s\S]*?)\x7b% endfor %\x7d/g`. -/

/-- Matcher for one loop block, applied to the text after the
`\x7b% for ` marker: greedy word-character item variable, literal
` in `, greedy word-character items variable, ` %\x7d`, lazy body up to
the first endfor marker. -/
def tryForBlock (rest : List Char) :
    Option (List Char × List Char × List Char × List Char) :=
  let iv := rest.takeWhile isWordChar
  let r1 := rest.dropWhile isWordChar
  if iv.isEmpty then none
  else if startsList (' ' :: 'i' :: 'n' :: [' ']) r1 then
    let r2 := r1.drop 4
    let isv := r2.takeWhile isWordChar
    let r3 := r2.dropWhile isWordChar
    if isv.isEmpty then none
    else if startsList pctClose r3 then
      match splitPat endforMarker (r3.drop pctClose.length) with
      | some (content, rest2) => some (iv, isv, content, rest2)
      | none => none
    else none
  else none

/-- Replacement callback of `processLoops` for one matched loop block:
`const items = data[itemsVar]; if (!items || !Array.isArray(items))
return ''`, otherwise the body is rendered once per item against a
context extended with the loop variable, and the results are joined. -/
def loopReplace (render : String → JVal → Except RenderErr String)
    (itemVar itemsVar content : String) (data : JVal) : Except RenderErr String :=
  let items := jsGet data itemsVar
  if !truthy items || !items.isArr then .ok ""
  else do
    let parts ← items.arrElems.mapM (fun item => render content (jsSet data itemVar item))
    .ok (String.join parts)

/-- Scanner of `processLoops`. -/
def processLoopsGo (render : String → JVal → Except RenderErr String) (data : JVal) :
    Nat → List Char → Except RenderErr (List Char)
  | 0, s => .ok s
  | _ + 1, [] => .ok []
  | f + 1, c :: cs =>
    if startsList forMarker (c :: cs) then
      match tryForBlock ((c :: cs).drop forMarker.length) with
      | some (iv, isv, content, rest) => do
        let rep ← loopReplace render (String.mk iv) (String.mk isv) (String.mk content) data
        let tail ← processLoopsGo render data f rest
        .ok (rep.data ++ tail)
      | none => do
        let tail ← processLoopsGo render data f cs
        .ok (c :: tail)
    else do
      let tail ← processLoopsGo render data f cs
      .ok (c :: tail)

/-- Embedding of `processLoops(template, data)` (the recursive
`renderString` call on the body is the injected `render`). -/
def processLoops (render : String → JVal → Except RenderErr String)
    (template : String) (data : JVal) : Except RenderErr String :=
  (processLoopsGo render data template.data.length template.data).map String.mk

/-! ### Template engine: includes and layout inheritance

Source: `src/engine/content.js` `processIncludes` and `processExtends`.
The quoted-path patterns `['"](.+)['"] %\x7d` are greedy: the captured
path runs to the last closing quote before ` %\x7d` on the line. -/

/-- Greedy scan for the closing quote of a quoted template path: walks
the rest of the line, remembering the last position where a quote
followed by ` %\x7d` closes a nonempty capture. -/
def scanQuoteClose (acc : List Char) (best : Option (List Char × List Char)) :
    List Char → Option (List Char × List Char)
  | [] => best
  | c :: cs =>
    if c == '\n' || c == '\r' then best
    else
      let best' :=
        if (c == squote || c == '"') && startsList pctClose cs && !acc.isEmpty then
          some (acc.reverse, cs.drop pctClose.length)
        else best
      scanQuoteClose (c :: acc) best' cs

/-- Matcher for a quoted template path after an `include`/`extends`
marker: an opening quote, then the greedy capture up to the last closing
quote. -/
def tryQuotedPath (rest : List Char) : Option (List Char × List Char) :=
  match rest with
  | q :: r1 => if q == squote || q == '"' then scanQuoteClose [] none r1 else none
  | [] => none

/-- Scanner of `processIncludes`: every include directive is replaced by
the included template rendered with the same data (the recursive
`renderString` call is the injected `render`); a missing template is a
load failure (`loadTemplate` throws). -/
def processIncludesGo (render : String → JVal → Except RenderErr String)
    (store : String → Option String) (data : JVal) :
    Nat → List Char → Except RenderErr (List Char)
  | 0, s => .ok s
  | _ + 1, [] => .ok []
  | f + 1, c :: cs =>
    if startsList includeMarker (c :: cs) then
      match tryQuotedPath ((c :: cs).drop includeMarker.length) with
      | some (path, rest) =>
        match store (String.mk path) with
        | none => .error (.loadFail (String.mk path))
        | some sub => do
          let rendered ← render sub data
          let tail ← processIncludesGo render store data f rest
          .ok (rendered.data ++ tail)
      | none => do
        let tail ← processIncludesGo render store data f cs
        .ok (c :: tail)
    else do
      let tail ← processIncludesGo render store data f cs
      .ok (c :: tail)

/-- Embedding of `processIncludes(template, data)`. -/
def processIncludes (render : String → JVal → Except RenderErr String)
    (store : String → Option String) (template : String) (data : JVal) :
    Except RenderErr String :=
  (processIncludesGo render store data template.data.length template.data).map String.mk

/-- First extends directive of a template
(`/\x7b% extends ['"](.+)['"] %\x7d/`, non-global): the layout path. -/
def findExtends : List Char → Option String
  | [] => none
  | c :: cs =>
    if startsList extendsMarker (c :: cs) then
      match tryQuotedPath ((c :: cs).drop extendsMarker.length) with
      | some (path, _) => some (String.mk path)
      | none => findExtends cs
    else findExtends cs

/-- Matcher for a block opening after the `\x7b% block ` marker: the
word-character block name followed by ` %\x7d`. -/
def tryBlockOpen (rest : List Char) : Option (List Char × List Char) :=
  let nm := rest.takeWhile isWordChar
  let r1 := rest.dropWhile isWordChar
  if nm.isEmpty then none
  else if startsList pctClose r1 then some (nm, r1.drop pctClose.length) else none

/-- Assignment into the `blocks` object of `processExtends` (JS object
semantics: a repeated block name overwrites). -/
def blocksSet (m : List (String × String)) (k : String) (v : String) :
    List (String × String) :=
  if m.any (fun f => f.1 == k) then
    m.map (fun f => if f.1 == k then (f.1, v) else f)
  else m ++ [(k, v)]

/-- Collection of the child template's named blocks
(`/\x7b% block (\w+) %\x7d([\s\S]*?)\x7b% endblock %\x7d/g`). -/
def extractBlocksGo : Nat → List Char → List (String × String) → List (String × String)
  | 0, _, m => m
  | _ + 1, [], m => m
  | f + 1, c :: cs, m =>
    if startsList blockOpenMarker (c :: cs) then
      match tryBlockOpen ((c :: cs).drop blockOpenMarker.length) with
      | some (nm, r1) =>
        match splitPat endblockMarker r1 with
        | some (content, rest) =>
          extractBlocksGo f rest (blocksSet m (String.mk nm) (String.mk content))
        | none => extractBlocksGo f cs m
      | none => extractBlocksGo f cs m
    else extractBlocksGo f cs m

/-- Blocks of a template. -/
def extractBlocks (template : List Char) : List (String × String) :=
  extractBlocksGo template.length template []

/-- Replacement of every placeholder of one named block in the layout by
the child's content (the dynamically built
`\x7b% block name %\x7d[\s\S]*?\x7b% endblock %\x7d` global regex). -/
def replaceBlockGo (nm content : List Char) : Nat → List Char → List Char
  | 0, s => s
  | _ + 1, [] => []
  | f + 1, c :: cs =>
    if startsList (blockOpenMarker ++ nm ++ pctClose) (c :: cs) then
      match splitPat endblockMarker
          ((c :: cs).drop (blockOpenMarker ++ nm ++ pctClose).length) with
      | some (_, rest) => content ++ replaceBlockGo nm content f rest
      | none => c :: replaceBlockGo nm content f cs
    else c :: replaceBlockGo nm content f cs

/-- Substitution of all extracted blocks into the layout, in insertion
order, as the `Object.keys(blocks).forEach` loop does. -/
def substituteBlocks (blocks : List (String × String)) (layout : List Char) : List Char :=
  blocks.foldl (fun acc b => replaceBlockGo b.1.data b.2.data acc.length acc) layout

/-- Embedding of `processExtends(template, data, options)`: a template
with no extends directive is returned unchanged; otherwise the layout is
loaded, the child's blocks are substituted into it, and `processExtends`
recurses on the result.  The source has no cycle detection whatsoever:
the recursion is bounded here only by fuel, and `RenderErr.outOfFuel`
for every fuel value means the source recursion never terminates. -/
def processExtendsF (store : String → Option String) :
    Nat → String → Except RenderErr String
  | 0, _ => .error .outOfFuel
  | fuel + 1, template =>
    match findExtends template.data with
    | none => .ok template
    | some layoutPath =>
      match store layoutPath with
      | none => .error (.loadFail layoutPath)
      | some layout =>
        processExtendsF store fuel
          (String.mk (substituteBlocks (extractBlocks template.data) layout.data))

/-- Embedding of `renderString(template, data)`: extends, includes,
conditionals, loops, variables, in that order. -/
def renderStringF (store : String → Option String) :
    Nat → String → JVal → Except RenderErr String
  | 0, _, _ => .error .outOfFuel
  | fuel + 1, template, data => do
    let t1 ← processExtendsF store (fuel + 1) template
    let t2 ← processIncludes (fun tpl d => renderStringF store fuel tpl d) store t1 data
    let t3 := processConditionals t2 data
    let t4 ← processLoops (fun tpl d => renderStringF store fuel tpl d) t3 data
    .ok (processVariables t4 data)

/-- Embedding of `TemplateEngine.render(templatePath, data)`: load the
template from the store and render it. -/
def renderTemplate (store : String → Option String) (fuel : Nat)
    (path : String) (data : JVal) : Except RenderErr String :=
  match store path with
  | none => .error (.loadFail path)
  | some tpl => renderStringF store fuel tpl data

/-! ### Post-processing of generated HTML

Source: `postProcessHtml(html)` of the static-site generator script:
remove unprocessed loop blocks, conditional blocks, variable markers and
empty lines. -/

/-- Matcher for a `\x7b%\s*word\s*%\x7d` marker (the `endfor`, `endif`
and `else` marker shapes of the post-processing regexes): returns the
rest after the marker. -/
def matchMarkerWs (word : List Char) (s : List Char) : Option (List Char) :=
  if startsList [lbrace, '%'] s then
    let r1 := trimLeftChars (s.drop 2)
    if startsList word r1 then
      let r2 := trimLeftChars (r1.drop word.length)
      if startsList ['%', rbrace] r2 then some (r2.drop 2) else none
    else none
  else none

/-- Search for the first `\x7b%\s*word\s*%\x7d` marker: the text before
it and the rest after it. -/
def findMarkerSplit (word : List Char) : List Char → Option (List Char × List Char)
  | [] => none
  | c :: cs =>
    match matchMarkerWs word (c :: cs) with
    | some rest => some ([], rest)
    | none =>
      match findMarkerSplit word cs with
      | some (pre, post) => some (c :: pre, post)
      | none => none

/-- Matcher for a `\x7b%\s*word\s+.*?%\x7d` block opening (the `for` and
`if` opening shapes, dot-all): at least one whitespace character after
the word, then the lazy stretch up to the first `%\x7d`. -/
def matchBlockOpenWs (word : List Char) (s : List Char) : Option (List Char) :=
  if startsList [lbrace, '%'] s then
    let r1 := trimLeftChars (s.drop 2)
    if startsList word r1 then
      match r1.drop word.length with
      | c :: r3 =>
        if isWsChar c then (splitPat ['%', rbrace] r3).map (fun pr => pr.2) else none
      | [] => none
    else none
  else none

/-- Removal pass `/\x7b%\s*for\s+.*?%\x7d(.*?)\x7b%\s*endfor\s*%\x7d/gs`
(and the same shape for `if`): each matched block is replaced by the
empty string. -/
def ppBlockGo (word endWord : List Char) : Nat → List Char → List Char
  | 0, s => s
  | _ + 1, [] => []
  | f + 1, c :: cs =>
    match matchBlockOpenWs word (c :: cs) with
    | some afterOpen =>
      match findMarkerSplit endWord afterOpen with
      | some (_, rest) => ppBlockGo word endWord f rest
      | none => c :: ppBlockGo word endWord f cs
    | none => c :: ppBlockGo word endWord f cs

/-- Removal pass `/\x7b%\s*else\s*%\x7d(.*?)\x7b%\s*endif\s*%\x7d/gs`. -/
def ppElseGo : Nat → List Char → List Char
  | 0, s => s
  | _ + 1, [] => []
  | f + 1, c :: cs =>
    match matchMarkerWs ('e' :: 'l' :: 's' :: ['e']) (c :: cs) with
    | some afterOpen =>
      match findMarkerSplit ('e' :: 'n' :: 'd' :: 'i' :: ['f']) afterOpen with
      | some (_, rest) => ppElseGo f rest
      | none => c :: ppElseGo f cs
    | none => c :: ppElseGo f cs

/-- Removal pass `/\x7b\x7b.*?\x7d\x7d/g` (no dot-all: the marker must
not span a line break). -/
def ppVarsGo : Nat → List Char → List Char
  | 0, s => s
  | _ + 1, [] => []
  | f + 1, c :: cs =>
    if c == lbrace && cs.head? == some lbrace then
      match splitPat [rbrace, rbrace] cs.tail with
      | some (mid, rest) =>
        if mid.contains '\n' || mid.contains '\r' then c :: ppVarsGo f cs
        else ppVarsGo f rest
      | none => c :: ppVarsGo f cs
    else c :: ppVarsGo f cs

/-- Index just past the last line-break character inside a whitespace
run, when one exists. -/
def lastNlCut (run : List Char) : Option Nat :=
  ((List.range run.length).filter
    (fun i => run.getD i ' ' == '\n' || run.getD i ' ' == '\r')).getLast?.map (· + 1)

/-- Removal pass `/^\s*[\r\n]/gm`: at each line start, the maximal
whitespace run truncated at its last line break is removed; a line whose
leading whitespace contains no line break is copied. -/
def stripEmptyLinesGo : Nat → Bool → List Char → List Char
  | 0, _, s => s
  | _ + 1, _, [] => []
  | f + 1, atStart, c :: cs =>
    if atStart then
      match lastNlCut ((c :: cs).takeWhile isWsChar) with
      | some k => stripEmptyLinesGo f true ((c :: cs).drop k)
      | none => c :: stripEmptyLinesGo f (c == '\n' || c == '\r') cs
    else c :: stripEmptyLinesGo f (c == '\n' || c == '\r') cs

/-- Embedding of `postProcessHtml(html)`: remove unprocessed loop
blocks, `if` blocks, `else`..`endif` blocks, variable markers, then
empty lines, in the source's order. -/
def postProcessHtml (html : String) : String :=
  let s1 := ppBlockGo ('f' :: 'o' :: ['r']) ('e' :: 'n' :: 'd' :: 'f' :: 'o' :: ['r'])
    html.data.length html.data
  let s2 := ppBlockGo ('i' :: ['f']) ('e' :: 'n' :: 'd' :: 'i' :: ['f']) s1.length s1
  let s3 := ppElseGo s2.length s2
  let s4 := ppVarsGo s3.length s3
  String.mk (stripEmptyLinesGo s4.length true s4)

/-! ### Arithmetic and list lemmas for the paginator -/

theorem ceilDiv_mul_ge (n p : Nat) (hp : 1 ≤ p) : n ≤ ceilDiv n p * p := by
  obtain ⟨q, rfl⟩ : ∃ q, p = q + 1 := ⟨p - 1, by omega⟩
  have hnum : n + (q + 1) - 1 = n + q := by omega
  unfold ceilDiv
  rw [hnum]
  have e := Nat.div_add_mod (n + q) (q + 1)
  have hr : (n + q) % (q + 1) < q + 1 := Nat.mod_lt _ (Nat.succ_pos q)
  rw [Nat.mul_comm]
  omega

theorem ceilDiv_zero_left (p : Nat) (hp : 1 ≤ p) : ceilDiv 0 p = 0 := by
  unfold ceilDiv
  exact Nat.div_eq_of_lt (by omega)

theorem flatten_slices {α : Type} (p : Nat) :
    ∀ (k : Nat) (items : List α), items.length ≤ k * p →
      ((List.range k).map (fun i => (items.drop (i * p)).take p)).flatten = items := by
  intro k
  induction k with
  | zero =>
    intro items h
    simp only [Nat.zero_mul, Nat.le_zero] at h
    have : items = [] := List.eq_nil_of_length_eq_zero h
    subst this
    simp
  | succ k ih =>
    intro items h
    rw [List.range_succ_eq_map]
    simp only [List.map_cons, List.map_map, List.flatten_cons, Nat.zero_mul,
      List.drop_zero]
    have hcomp : ((List.range k).map ((fun i => (items.drop (i * p)).take p) ∘ Nat.succ))
        = (List.range k).map (fun i => ((items.drop p).drop (i * p)).take p) := by
      apply List.map_congr_left
      intro i _
      simp only [Function.comp_apply]
      rw [List.drop_drop]
      have he : p + i * p = i.succ * p := by rw [Nat.succ_mul]; omega
      rw [he]
    rw [hcomp, ih (items.drop p) (by rw [List.length_drop, Nat.succ_mul] at *; omega)]
    exact List.take_append_drop p items

/-! ### Claim theorems: pagination (C1, C5) -/

/-- C1: for every list of `n ≥ 1` items and every `pageSize ≥ 1`,
`paginateItems` produces exactly `ceil(n / pageSize)` pages, the pages
are 1-indexed, concatenating the pages' item slices in order gives back
exactly the input list (so every item appears in exactly one page and
order is preserved across page boundaries), and the pagination object of
`generatePages` has a previous link exactly when `pageNumber > 1` and a
next link exactly when `pageNumber < totalPages`. -/
theorem paginate_partition_and_nav_flags {α : Type} (items : List α) (perPage : Nat)
    (g : Nat → Nat → String) (hn : 1 ≤ items.length) (hp : 1 ≤ perPage) :
    (paginateItems items perPage g).length = ceilDiv items.length perPage ∧
    ((paginateItems items perPage g).map PageSB.itemsForPage).flatten = items ∧
    (∀ i (hi : i < (paginateItems items perPage g).length),
      ((paginateItems items perPage g).get ⟨i, hi⟩).page = i + 1) ∧
    (∀ page, 1 ≤ page →
      (((mkPagination page (ceilDiv items.length perPage)).prevPage ≠ none) ↔ 1 < page) ∧
      (((mkPagination page (ceilDiv items.length perPage)).nextPage ≠ none) ↔
        page < ceilDiv items.length perPage)) := by
  refine ⟨by simp [paginateItems], ?_, ?_, ?_⟩
  · unfold paginateItems
    rw [List.map_map]
    exact flatten_slices perPage (ceilDiv items.length perPage) items
      (ceilDiv_mul_ge items.length perPage hp)
  · intro i hi
    simp [paginateItems, List.get_eq_getElem]
  · intro page hpage
    constructor
    · by_cases h : 1 < page <;> simp [mkPagination, h]
    · by_cases h : page < ceilDiv items.length perPage <;> simp [mkPagination, h]

theorem paginate_partition_witness :
    ((paginateItems [10, 20, 30] 2 (fun _ _ => "")).map PageSB.itemsForPage).flatten
      = [10, 20, 30] :=
  (paginate_partition_and_nav_flags [10, 20, 30] 2 (fun _ _ => "")
    (by decide) (by decide)).2.1

/-- C5 counterexample: on the empty item list both paginators return the
empty sequence of pages — not one empty page labelled page 1 as the
claim states. -/
theorem paginate_empty_counterexample :
    paginateItems ([] : List Nat) 5 (fun _ _ => "") = [] ∧
    indexPages ([] : List Nat) 5 = [] :=
  ⟨rfl, rfl⟩

/-- C5 amended: for the empty item list and every `pageSize ≥ 1`,
`paginateItems` (and the index-page loop of `generatePages`) return the
empty sequence of pages: `totalPages = 0` and the page loop never runs,
so no page 1 exists for an empty item list. -/
theorem paginate_empty_returns_no_pages {α : Type} (perPage : Nat)
    (g : Nat → Nat → String) (hp : 1 ≤ perPage) :
    paginateItems ([] : List α) perPage g = [] ∧
    indexPages ([] : List α) perPage = [] := by
  unfold paginateItems indexPages
  constructor <;> simp [ceilDiv_zero_left perPage hp]

theorem paginate_empty_returns_no_pages_witness :
    paginateItems ([] : List Nat) 7 (fun _ _ => "") = [] ∧
    indexPages ([] : List Nat) 7 = [] :=
  paginate_empty_returns_no_pages 7 (fun _ _ => "") (by decide)

/-! ### Claim theorems: reading time (C6) -/

theorem dropWhile_head_false (p : Char → Bool) :
    ∀ (l : List Char) (c : Char) (cs : List Char),
      l.dropWhile p = c :: cs → p c = false := by
  intro l
  induction l with
  | nil => intro c cs h; simp at h
  | cons d ds ih =>
    intro c cs h
    by_cases hd : p d
    · rw [List.dropWhile_cons, if_pos hd] at h
      exact ih c cs h
    · rw [List.dropWhile_cons, if_neg hd] at h
      cases h
      cases hpb : p d
      · rfl
      · exact absurd hpb hd

theorem wsTokensAux_ne_nil :
    ∀ (s acc : List Char), (∃ x ∈ s, isWsChar x = false) ∨ acc ≠ [] →
      wsTokensAux acc s ≠ [] := by
  intro s
  induction s with
  | nil =>
    intro acc h
    rcases h with ⟨x, hx, _⟩ | ha
    · simp at hx
    · simp only [wsTokensAux]
      rw [if_neg (by simpa using ha)]
      simp
  | cons c cs ih =>
    intro acc h
    simp only [wsTokensAux]
    by_cases hc : isWsChar c
    · rw [if_pos hc]
      by_cases ha : acc.isEmpty
      · rw [if_pos ha]
        apply ih [] (Or.inl ?_)
        rcases h with ⟨x, hx, hxw⟩ | hane
        · rcases List.mem_cons.mp hx with rfl | hmem
          · rw [hc] at hxw; cases hxw
          · exact ⟨x, hmem, hxw⟩
        · exact absurd (List.isEmpty_iff.mp ha) hane
      · rw [if_neg ha]
        simp
    · rw [if_neg hc]
      exact ih (c :: acc) (Or.inr (by simp))

theorem wsTokens_ne_nil (s : List Char) (h : ∃ x ∈ s, isWsChar x = false) :
    wsTokens s ≠ [] :=
  wsTokensAux_ne_nil s [] (Or.inl h)

theorem jsWordCount_pos (body : String) : 1 ≤ jsWordCount body := by
  unfold jsWordCount
  rcases h : jsTrimChars body.data with _ | ⟨c, cs⟩
  · simp [jsSplitWsLength]
  · have hne : ((body.data.dropWhile isWsChar).reverse.dropWhile isWsChar) ≠ [] := by
      intro hnil
      unfold jsTrimChars at h
      rw [hnil] at h
      simp at h
    rcases he : ((body.data.dropWhile isWsChar).reverse.dropWhile isWsChar) with _ | ⟨e, es⟩
    · exact absurd he hne
    · have hew : isWsChar e = false := dropWhile_head_false isWsChar _ e es he
      have hmem : e ∈ c :: cs := by
        rw [← h]
        unfold jsTrimChars
        rw [he]
        exact List.mem_reverse.mpr (List.mem_cons_self e es)
      have hlen := List.length_pos.mpr (wsTokens_ne_nil (c :: cs) ⟨e, hmem, hew⟩)
      simp only [jsSplitWsLength]
      omega

/-- Concrete body used for the reading-time counterexample: 201
whitespace-separated HTML tags and nothing else. -/
def tagOnlyBody : String := joinWith " " (List.replicate 201 "<b>")

set_option maxRecDepth 1000000 in
/-- C6 counterexample: on a body of 201 whitespace-separated HTML tags
at 200 words per minute, the source (`calculateReadingTime`, which does
no stripping) reports 2 minutes, while the claim's formula (word count
after stripping HTML tags) yields 1: the implementations do not strip
markup before counting. -/
theorem readingTime_no_stripping_counterexample :
    calculateReadingTime tagOnlyBody 200 = 2 ∧
    specReadingTime tagOnlyBody 200 = 1 ∧
    calculateReadingTime tagOnlyBody 200 ≠ specReadingTime tagOnlyBody 200 := by
  refine ⟨by decide, by decide, by decide⟩

set_option maxRecDepth 1000000 in
/-- C6 amended: reading time is `max(1, ceil(wordCount /
wordsPerMinute))` where `wordCount` counts the whitespace-separated
tokens of the raw trimmed body with no markup stripping; the
`loadPosts` inline computation agrees with `calculateReadingTime` at 200
words per minute on every body; a body of 400 space-separated words at
200 words per minute yields 2 and a body of one word yields 1. -/
theorem readingTime_raw_token_count :
    (∀ body : String, contentJsReadingTime body = calculateReadingTime body 200) ∧
    (∀ body : String, 1 ≤ calculateReadingTime body 200) ∧
    calculateReadingTime (joinWith " " (List.replicate 400 "word")) 200 = 2 ∧
    calculateReadingTime "word" 200 = 1 := by
  refine ⟨?_, ?_, by decide, by decide⟩
  · intro body
    unfold contentJsReadingTime calculateReadingTime
    by_cases hb : body = ""
    · subst hb; decide
    · rw [if_neg hb]
      have hw := jsWordCount_pos body
      have h1 : 1 ≤ ceilDiv (jsWordCount body) 200 := by
        rw [ceilDiv, Nat.one_le_div_iff (by omega)]
        omega
      omega
  · intro body
    unfold calculateReadingTime
    split
    · exact Nat.le_refl 1
    · exact Nat.le_max_left 1 _

/-! ### Claim theorems: extends cycle (C2) -/

/-- Self-extending template used to exhibit the extends cycle. -/
def selfExtendsTpl : String := "\x7b% extends \"a.html\" %\x7d"

/-- Template store in which `a.html` extends itself. -/
def selfExtendsStore : String → Option String :=
  fun p => if p = "a.html" then some selfExtendsTpl else none

/-- C2 (the code violates the claim): on a template that extends itself,
`processExtends` recurses forever — for every fuel bound the embedded
recursion runs out of fuel, and no error value other than fuel
exhaustion is ever produced.  The source has no cycle detection and no
`TemplateError` class at all; rendering a self-extending template
overflows the call stack instead of failing with a `TemplateError`. -/
theorem extends_self_cycle_never_terminates :
    ∀ fuel : Nat, processExtendsF selfExtendsStore fuel selfExtendsTpl =
      .error .outOfFuel := by
  intro fuel
  induction fuel with
  | zero => rfl
  | succ n ih =>
    have hstep : processExtendsF selfExtendsStore (n + 1) selfExtendsTpl =
        processExtendsF selfExtendsStore n selfExtendsTpl := rfl
    rw [hstep, ih]

/-! ### Claim theorems: output collision (C4) -/

/-- C4 (the code violates the claim): two content files whose names
normalize to the same slug (`Hello World.md` and `hello-world.md` both
slugify to `hello-world`) map to the same output key
`/posts/hello-world`, and `generatePages` silently overwrites: the final
page map holds exactly one entry for that URL, containing only the
later post.  No `OutputCollisionError` exists anywhere in the source and
nothing aborts the build. -/
theorem slug_collision_silently_overwrites :
    slugifyLS "Hello World" = "hello-world" ∧
    slugifyLS "hello-world" = "hello-world" ∧
    buildPostPages
        [{ slug := "hello-world", title := "First", tags := [] },
         { slug := "hello-world", title := "Second", tags := [] }] =
      [("/posts/hello-world", { slug := "hello-world", title := "Second", tags := [] })] :=
  ⟨rfl, rfl, rfl⟩

/-! ### Claim theorems: leftover directive syntax (C9) -/

/-- Template made only of block markers, with no extends directive. -/
def bareBlockTpl : String := "\x7b% block content %\x7dHi\x7b% endblock %\x7d"

/-- Store with no templates (none are needed for the counterexample). -/
def emptyStore : String → Option String := fun _ => none

/-- C9 counterexample: a template consisting of `\x7b% block %\x7d` ...
`\x7b% endblock %\x7d` markers and no extends directive passes through
every render pass and through `postProcessHtml` verbatim, so the shipped
HTML contains the substring `\x7b% block content %\x7d` — a leftover
`\x7b% ... %\x7d` directive marker. -/
theorem leftover_block_marker_counterexample :
    (renderStringF emptyStore 5 bareBlockTpl (.obj [])).map postProcessHtml =
      .ok bareBlockTpl ∧
    occursIn ("\x7b% block content %\x7d".data) bareBlockTpl.data = true :=
  ⟨rfl, by decide⟩

/-- C9 amended: post-processing strips leftover matched `if`/`endif`
blocks, `for`/`endfor` blocks and `\x7b\x7b ... \x7d\x7d` variable
markers from the shipped HTML, but directive markers outside those
patterns — such as unmatched `\x7b% block %\x7d`/`\x7b% endblock %\x7d`
pairs without an extends directive — pass through all render passes and
post-processing verbatim and appear in the shipped output. -/
theorem leftover_directive_incomplete_stripping :
    postProcessHtml "\x7b% if x %\x7dA\x7b% endif %\x7d" = "" ∧
    postProcessHtml "\x7b% for a in b %\x7dT\x7b% endfor %\x7d" = "" ∧
    postProcessHtml "\x7b\x7b leftover \x7d\x7d" = "" ∧
    (renderStringF emptyStore 5 bareBlockTpl (.obj [])).map postProcessHtml =
      .ok bareBlockTpl :=
  ⟨rfl, rfl, rfl, rfl⟩

/-! ### Claim theorems: loops over missing collections (C10) -/

/-- C10: for every loop block and every context in which the loop's
collection key is not bound to an array (in particular when the key is
absent, so the lookup yields `undefined`), the replacement callback of
`processLoops` turns the entire block — body included — into the empty
string, raising no error of any kind (the result is always `ok`). -/
theorem loop_missing_collection_yields_empty
    (render : String → JVal → Except RenderErr String)
    (itemVar itemsVar content : String) (data : JVal)
    (h : (jsGet data itemsVar).isArr = false) :
    loopReplace render itemVar itemsVar content data = .ok "" := by
  unfold loopReplace
  simp only [h]
  simp

theorem loop_missing_collection_witness :
    loopReplace (fun _ _ => .ok "X") "x" "items" "B" (.obj [("title", .str "t")]) =
      .ok "" :=
  loop_missing_collection_yields_empty (fun _ _ => .ok "X") "x" "items" "B"
    (.obj [("title", .str "t")]) rfl

/-! ### Engine sanity checks (not tied to a single claim)

The embedding reproduces the spec's end-to-end template scenario C and
the full-scanner behavior of the loop and conditional passes. -/

def baseLayoutTpl : String := "<html>\x7b% block content %\x7d\x7b% endblock %\x7d</html>"

def childPageTpl : String := "\x7b% extends \"base.html\" %\x7d\x7b% block content %\x7dHi\x7b% endblock %\x7d"

def baseLayoutStore : String → Option String :=
  fun p => if p = "base.html" then some baseLayoutTpl else none

theorem renderString_extends_scenario :
    renderStringF baseLayoutStore 5 childPageTpl (.obj []) = .ok "<html>Hi</html>" := rfl

theorem renderString_loop_scenario :
    renderStringF emptyStore 5 "\x7b% for x in items %\x7d[\x7b\x7b x \x7d\x7d]\x7b% endfor %\x7d"
      (.obj [("items", .arr [.str "a", .str "b"])]) = .ok "[a][b]" := rfl

theorem renderString_loop_missing_scenario :
    renderStringF emptyStore 5 "\x7b% for x in items %\x7d[\x7b\x7b x \x7d\x7d]\x7b% endfor %\x7d"
      (.obj [("other", .str "y")]) = .ok "" := rfl

theorem processConditionals_missing_path_scenario :
    processConditionals "\x7b% if post.banner %\x7dYES\x7b% else %\x7dNO\x7b% endif %\x7d"
      (.obj [("title", .str "t")]) = "NO" := rfl

/-! ### Claim theorems: tag index (C7) -/

theorem tagBucket_cons (f : String × List Post) (fs : List (String × List Post))
    (u : String) :
    tagBucket (f :: fs) u = if f.1 = u then f.2 else tagBucket fs u := by
  unfold tagBucket
  by_cases h : f.1 = u
  · rw [List.find?_cons_of_pos _ (by simp [h]), if_pos h]
  · rw [List.find?_cons_of_neg _ (by simp [h]), if_neg h]

theorem tagBucket_tagPush (m : List (String × List Post)) (t u : String) (p : Post) :
    tagBucket (tagPush m t p) u =
      if t = u then tagBucket m u ++ [p] else tagBucket m u := by
  induction m with
  | nil =>
    rw [show tagPush [] t p = [(t, [p])] from rfl, tagBucket_cons]
    by_cases htu : t = u <;> simp [htu, tagBucket]
  | cons f fs ih =>
    by_cases hft : f.1 = t
    · rw [show tagPush (f :: fs) t p = (f.1, f.2 ++ [p]) :: fs from by
        simp [tagPush, hft]]
      rw [tagBucket_cons, tagBucket_cons]
      by_cases hfu : f.1 = u
      · have htu : t = u := hft.symm.trans hfu
        simp [hfu, htu]
      · have htu : ¬t = u := fun he => hfu (hft.trans he)
        simp [hfu, htu]
    · rw [show tagPush (f :: fs) t p = f :: tagPush fs t p from by simp [tagPush, hft]]
      rw [tagBucket_cons, tagBucket_cons]
      by_cases hfu : f.1 = u
      · have htu : ¬t = u := fun he => hft (he ▸ hfu)
        simp [hfu, htu]
      · simp [hfu, ih]

theorem tagBucket_foldl_tags (p : Post) (u : String) :
    ∀ (tags : List String) (m : List (String × List Post)),
      tagBucket (tags.foldl (fun m t => tagPush m t p) m) u =
        tagBucket m u ++ (tags.filter (fun t => t == u)).map (fun _ => p) := by
  intro tags
  induction tags with
  | nil => intro m; simp
  | cons t ts ih =>
    intro m
    simp only [List.foldl_cons]
    rw [ih (tagPush m t p), tagBucket_tagPush]
    by_cases htu : t = u
    · simp [htu, List.filter_cons]
    · simp [htu, List.filter_cons]

theorem tagBucket_fold_posts (u : String) :
    ∀ (posts : List Post) (m : List (String × List Post)),
      tagBucket
          (posts.foldl
            (fun tags post => post.tags.foldl (fun m t => tagPush m t post) tags) m) u =
        tagBucket m u ++
          posts.flatMap (fun p => (p.tags.filter (fun t => t == u)).map (fun _ => p)) := by
  intro posts
  induction posts with
  | nil => intro m; simp
  | cons p ps ih =>
    intro m
    simp only [List.foldl_cons, List.flatMap_cons]
    rw [ih, tagBucket_foldl_tags, List.append_assoc]

/-- C7: for every sequence of posts and every tag string `T` (compared
byte-for-byte as exact `String` keys, with no normalization), a post of
the sequence appears in the `extractTags` bucket for `T` exactly when
`T` is an element of that post's `tags` list. -/
theorem tag_index_membership_iff (posts : List Post) (T : String) (p : Post)
    (hp : p ∈ posts) :
    p ∈ tagBucket (extractTags posts) T ↔ T ∈ p.tags := by
  unfold extractTags
  rw [tagBucket_fold_posts]
  have hnil : tagBucket [] T = [] := rfl
  rw [hnil, List.nil_append]
  constructor
  · intro hmem
    rw [List.mem_flatMap] at hmem
    obtain ⟨q, _, hq⟩ := hmem
    rw [List.mem_map] at hq
    obtain ⟨a, ha, rfl⟩ := hq
    rw [List.mem_filter] at ha
    exact (beq_iff_eq.mp ha.2) ▸ ha.1
  · intro hT
    rw [List.mem_flatMap]
    refine ⟨p, hp, ?_⟩
    rw [List.mem_map]
    exact ⟨T, List.mem_filter.mpr ⟨hT, beq_self_eq_true T⟩, rfl⟩

theorem tag_index_membership_witness :
    ({ slug := "a", title := "A", tags := ["t1", "t2"] } : Post) ∈
        tagBucket
          (extractTags
            [{ slug := "a", title := "A", tags := ["t1", "t2"] },
             { slug := "b", title := "B", tags := ["t1"] }]) "t1" ↔
      "t1" ∈ ({ slug := "a", title := "A", tags := ["t1", "t2"] } : Post).tags :=
  tag_index_membership_iff _ "t1" _ (List.mem_cons_self _ _)

/-! ### Claim theorems: conditionals on missing paths (C3) -/

/-- Join of dot-path segments (`root.p1.p2...`). -/
def joinDot : List (List Char) → List Char
  | [] => []
  | [q] => q
  | q :: qs => q ++ '.' :: joinDot qs

theorem joinDot_cons_of_ne_nil (q : List Char) (qs : List (List Char)) (h : qs ≠ []) :
    joinDot (q :: qs) = q ++ '.' :: joinDot qs := by
  cases qs with
  | nil => exact absurd rfl h
  | cons r rs => rfl

theorem dot_mem_joinDot (root : List Char) (props : List (List Char)) (h : props ≠ []) :
    '.' ∈ joinDot (root :: props) := by
  rw [joinDot_cons_of_ne_nil root props h]
  exact List.mem_append.mpr (Or.inr (List.mem_cons_self _ _))

theorem mem_joinDot (x : Char) :
    ∀ (parts : List (List Char)), x ∈ joinDot parts →
      (∃ q ∈ parts, x ∈ q) ∨ x = '.' := by
  intro parts
  induction parts with
  | nil => intro h; simp [joinDot] at h
  | cons q qs ih =>
    intro h
    cases qs with
    | nil =>
      simp only [joinDot] at h
      exact Or.inl ⟨q, List.mem_cons_self _ _, h⟩
    | cons r rs =>
      rw [joinDot_cons_of_ne_nil q (r :: rs) (by simp)] at h
      rcases List.mem_append.mp h with hq | hrest
      · exact Or.inl ⟨q, List.mem_cons_self _ _, hq⟩
      · rcases List.mem_cons.mp hrest with rfl | hmem
        · exact Or.inr rfl
        · rcases ih hmem with ⟨w, hw, hxw⟩ | hdot
          · exact Or.inl ⟨w, List.mem_cons_of_mem q hw, hxw⟩
          · exact Or.inr hdot

theorem splitOnCharAux_no_sep (sep : Char) :
    ∀ (t : List Char) (acc : List Char), sep ∉ t →
      splitOnCharAux sep acc t = [acc.reverse ++ t] := by
  intro t
  induction t with
  | nil => intro acc _; simp [splitOnCharAux]
  | cons c cs ih =>
    intro acc ht
    have hc : (c == sep) = false := by
      by_contra hne
      rw [Bool.not_eq_false, beq_iff_eq] at hne
      exact ht (hne ▸ List.mem_cons_self c cs)
    simp only [splitOnCharAux, hc, Bool.false_eq_true, if_false]
    rw [ih (c :: acc) (fun hm => ht (List.mem_cons_of_mem c hm))]
    simp

theorem splitOnCharAux_sep_split (sep : Char) :
    ∀ (pre : List Char) (rest : List Char) (acc : List Char), sep ∉ pre →
      splitOnCharAux sep acc (pre ++ sep :: rest) =
        (acc.reverse ++ pre) :: splitOnCharAux sep [] rest := by
  intro pre
  induction pre with
  | nil =>
    intro rest acc _
    simp [splitOnCharAux]
  | cons c cs ih =>
    intro rest acc hpre
    have hc : (c == sep) = false := by
      by_contra hne
      rw [Bool.not_eq_false, beq_iff_eq] at hne
      exact hpre (hne ▸ List.mem_cons_self c cs)
    simp only [List.cons_append, splitOnCharAux, hc, Bool.false_eq_true, if_false,
      List.append_eq]
    rw [ih rest (c :: acc) (fun hm => hpre (List.mem_cons_of_mem c hm))]
    simp

theorem splitDot_joinDot :
    ∀ (parts : List (List Char)), parts ≠ [] → (∀ q ∈ parts, ('.' : Char) ∉ q) →
      splitDot (joinDot parts) = parts := by
  intro parts
  induction parts with
  | nil => intro h _; exact absurd rfl h
  | cons q qs ih =>
    intro _ hfree
    cases qs with
    | nil =>
      show splitOnChar '.' (joinDot [q]) = [q]
      simp only [joinDot]
      unfold splitOnChar
      rw [splitOnCharAux_no_sep '.' q [] (hfree q (List.mem_cons_self _ _))]
      simp
    | cons r rs =>
      rw [joinDot_cons_of_ne_nil q (r :: rs) (by simp)]
      show splitOnChar '.' (q ++ '.' :: joinDot (r :: rs)) = q :: (r :: rs)
      unfold splitOnChar
      rw [splitOnCharAux_sep_split '.' q (joinDot (r :: rs)) []
        (hfree q (List.mem_cons_self _ _))]
      simp only [List.reverse_nil, List.nil_append]
      have := ih (by simp) (fun w hw => hfree w (List.mem_cons_of_mem q hw))
      unfold splitDot splitOnChar at this
      rw [this]

theorem mem_dropWhile_of_not (p : Char → Bool) (x : Char) (hpx : p x = false) :
    ∀ (l : List Char), x ∈ l → x ∈ l.dropWhile p := by
  intro l
  induction l with
  | nil => intro h; simp at h
  | cons c cs ih =>
    intro hx
    by_cases hc : p c
    · rw [List.dropWhile_cons, if_pos hc]
      rcases List.mem_cons.mp hx with rfl | hmem
      · rw [hc] at hpx; cases hpx
      · exact ih hmem
    · rw [List.dropWhile_cons, if_neg hc]
      exact hx

theorem mem_jsTrimChars_of_not_ws (x : Char) (hx : isWsChar x = false)
    (l : List Char) (hm : x ∈ l) : x ∈ jsTrimChars l := by
  unfold jsTrimChars
  apply List.mem_reverse.mpr
  apply mem_dropWhile_of_not isWsChar x hx
  apply List.mem_reverse.mpr
  exact mem_dropWhile_of_not isWsChar x hx l hm

theorem isWordChar_not_ws (c : Char) (h : isWordChar c = true) : isWsChar c = false := by
  by_contra hne
  rw [Bool.not_eq_false] at hne
  simp only [isWsChar, Bool.or_eq_true, beq_iff_eq] at hne
  rcases hne with ((((rfl | rfl) | rfl) | rfl) | rfl) | rfl <;> exact absurd h (by decide)

theorem wsTokensAux_all_nonws :
    ∀ (s : List Char) (acc : List Char), (∀ x ∈ s, isWsChar x = false) →
      (acc ≠ [] ∨ s ≠ []) → wsTokensAux acc s = [acc.reverse ++ s] := by
  intro s
  induction s with
  | nil =>
    intro acc _ hne
    rcases hne with ha | hs
    · simp only [wsTokensAux]
      rw [if_neg (by simpa using ha)]
      simp
    · exact absurd rfl hs
  | cons c cs ih =>
    intro acc hnw _
    have hc : isWsChar c = false := hnw c (List.mem_cons_self _ _)
    simp only [wsTokensAux, hc, Bool.false_eq_true, if_false]
    rw [ih (c :: acc) (fun x hx => hnw x (List.mem_cons_of_mem c hx)) (Or.inl (by simp))]
    simp

theorem all_word_dot_free (q : List Char) (hq : q.all isWordChar = true) :
    ('.' : Char) ∉ q := by
  intro hm
  have := List.all_eq_true.mp hq '.' hm
  exact absurd this (by decide)

theorem isSimpleWord_dotpath_false (t : List Char) (hdot : ('.' : Char) ∈ t) :
    isSimpleWord (String.mk t) = false := by
  have hmem : ('.' : Char) ∈ jsTrimChars t :=
    mem_jsTrimChars_of_not_ws '.' (by decide) t hdot
  have hall : (jsTrimChars t).all isWordChar = false := by
    cases hw : (jsTrimChars t).all isWordChar
    · rfl
    · exact absurd (List.all_eq_true.mp hw '.' hmem) (by decide)
  simp only [isSimpleWord]
  rw [hall, Bool.and_false]

theorem splitAtTok_single_ne (sep t : List Char) (h : ¬t = sep) :
    splitAtTok sep [t] = none := by
  have hb : (t != sep) = true := by simp [bne_iff_ne, h]
  simp [splitAtTok, List.dropWhile, hb]

theorem joinDot_ne_of_no_dot (root : List Char) (props : List (List Char))
    (hprops : props ≠ []) (u : List Char) (hu : ('.' : Char) ∉ u) :
    ¬joinDot (root :: props) = u := by
  intro he
  exact hu (he ▸ dot_mem_joinDot root props hprops)

theorem parseOrChain_single (t : List Char) (h1 : ¬t = "||".data)
    (h2 : ¬t = "&&".data) :
    parseOrChain [t] = (parseAtom t).map CExpr.atom := by
  have e1 : parseOrChain [t] = (match splitAtTok ("||".data) [t] with
      | none => parseAndChain [t]
      | some (l, r) =>
        match parseAndChain l, parseOrGo 0 r with
        | some le, some re => some (.bor le re)
        | _, _ => none) := rfl
  have e2 : parseAndChain [t] = (match splitAtTok ("&&".data) [t] with
      | none => (parseAtom t).map CExpr.atom
      | some (l, r) =>
        match l with
        | [u] =>
          match parseAtom u, parseAndGo 0 r with
          | some a, some re => some (.band (.atom a) re)
          | _, _ => none
        | _ => none) := rfl
  rw [e1, splitAtTok_single_ne _ _ h1]
  show parseAndChain [t] = _
  rw [e2, splitAtTok_single_ne _ _ h2]

theorem parseAtom_joinDot (root : List Char) (props : List (List Char))
    (hrootw : root ≠ [] ∧ root.all isWordChar = true)
    (hprops : props ≠ []) (hpropsw : ∀ q ∈ props, q ≠ [] ∧ q.all isWordChar = true) :
    parseAtom (joinDot (root :: props)) =
      some (.chain (String.mk root) (props.map String.mk)) := by
  have hdot := dot_mem_joinDot root props hprops
  have hnt : ¬joinDot (root :: props) = "true".data :=
    joinDot_ne_of_no_dot root props hprops _ (by decide)
  have hnf : ¬joinDot (root :: props) = "false".data :=
    joinDot_ne_of_no_dot root props hprops _ (by decide)
  have hnd : ((joinDot (root :: props)).all Char.isDigit) = false := by
    cases hw : (joinDot (root :: props)).all Char.isDigit
    · rfl
    · exact absurd (List.all_eq_true.mp hw '.' hdot) (by decide)
  have hsplit : splitDot (joinDot (root :: props)) = root :: props := by
    apply splitDot_joinDot (root :: props) (by simp)
    intro q hq
    rcases List.mem_cons.mp hq with rfl | hmem
    · exact all_word_dot_free q hrootw.2
    · exact all_word_dot_free q (hpropsw q hmem).2
  have hallw : (root :: props).all (fun p => !p.isEmpty && p.all isWordChar) = true := by
    apply List.all_eq_true.mpr
    intro q hq
    rcases List.mem_cons.mp hq with rfl | hmem
    · simp [List.isEmpty_iff, hrootw.1, hrootw.2]
    · simp [List.isEmpty_iff, (hpropsw q hmem).1, (hpropsw q hmem).2]
  unfold parseAtom
  rw [if_neg hnt, if_neg hnf]
  rw [show (!(joinDot (root :: props)).isEmpty && (joinDot (root :: props)).all Char.isDigit)
      = false from by rw [hnd, Bool.and_false]]
  cases props with
  | nil => exact absurd rfl hprops
  | cons r rs =>
    simp only [Bool.false_eq_true, if_false, hsplit, hallw, if_true]

/-- C3: for every conditional block whose condition is a dot-addressable
path `root.p1...pn` of word-character segments, every if/else content
pair, and every data context in which the path is missing or undefined
(the root is not a key of the context, or optional-chaining resolution
of the properties yields `undefined`), evaluating the condition does not
raise: the replacement callback of `processConditionals` is total and
selects the else content (which is the empty string for a block with no
else part). -/
theorem conditional_missing_path_takes_else
    (root : List Char) (props : List (List Char)) (ifC elseC : String) (data : JVal)
    (hrootw : root ≠ [] ∧ root.all isWordChar = true)
    (hprops : props ≠ []) (hpropsw : ∀ q ∈ props, q ≠ [] ∧ q.all isWordChar = true)
    (hmiss : hasKey data (String.mk root) = false ∨
      chainGet (jsGet data (String.mk root)) (props.map String.mk) = .undefined) :
    condReplace (String.mk (joinDot (root :: props))) ifC elseC data = elseC := by
  have hdot : ('.' : Char) ∈ joinDot (root :: props) := dot_mem_joinDot root props hprops
  have hsimple : isSimpleWord (String.mk (joinDot (root :: props))) = false :=
    isSimpleWord_dotpath_false _ hdot
  have hnonws : ∀ x ∈ joinDot (root :: props), isWsChar x = false := by
    intro x hx
    rcases mem_joinDot x (root :: props) hx with ⟨q, hq, hxq⟩ | rfl
    · rcases List.mem_cons.mp hq with rfl | hmem
      · exact isWordChar_not_ws x (List.all_eq_true.mp hrootw.2 x hxq)
      · exact isWordChar_not_ws x (List.all_eq_true.mp (hpropsw q hmem).2 x hxq)
    · decide
  have hne : joinDot (root :: props) ≠ [] := by
    intro he
    rw [he] at hdot
    simp at hdot
  have htokens : wsTokens (joinDot (root :: props)) = [joinDot (root :: props)] := by
    unfold wsTokens
    rw [wsTokensAux_all_nonws _ [] hnonws (Or.inr hne)]
    simp
  have hnorm : opNormalize [joinDot (root :: props)] = [joinDot (root :: props)] := by
    simp only [opNormalize, List.map_cons, List.map_nil]
    rw [if_neg (joinDot_ne_of_no_dot root props hprops _ (by decide)),
      if_neg (joinDot_ne_of_no_dot root props hprops _ (by decide))]
  have hsafe : makeSafeCondition (String.mk (joinDot (root :: props))) =
      String.mk (joinDot (root :: props)) := by
    unfold makeSafeCondition
    rw [show (String.mk (joinDot (root :: props))).data = joinDot (root :: props)
      from rfl, htokens, hnorm]
    rfl
  have hparse : parseCond (String.mk (joinDot (root :: props))) =
      some (.atom (.chain (String.mk root) (props.map String.mk))) := by
    unfold parseCond
    rw [show (String.mk (joinDot (root :: props))).data = joinDot (root :: props)
      from rfl, htokens, hnorm]
    show parseOrChain [joinDot (root :: props)] = _
    rw [parseOrChain_single _ (joinDot_ne_of_no_dot root props hprops _ (by decide))
      (joinDot_ne_of_no_dot root props hprops _ (by decide))]
    rw [parseAtom_joinDot root props hrootw hprops hpropsw]
    rfl
  have heval : evaluateCondition (String.mk (joinDot (root :: props))) data = false := by
    unfold evaluateCondition
    rw [hparse]
    show (match (if hasKey data (String.mk root) = true then
        Except.ok (chainGet (jsGet data (String.mk root)) (props.map String.mk))
      else Except.error (() : Unit)) with
      | .error _ => false
      | .ok v => truthy v) = false
    by_cases hk : hasKey data (String.mk root) = true
    · rw [if_pos hk]
      rcases hmiss with hmiss | hmiss
      · rw [hk] at hmiss; cases hmiss
      · rw [hmiss]
        rfl
    · rw [if_neg hk]
  unfold condReplace
  rw [hsimple]
  simp only [Bool.false_eq_true, if_false]
  rw [hsafe, heval]
  simp

theorem conditional_missing_path_witness :
    condReplace (String.mk (joinDot ["post".data, "banner".data])) "YES" "NO"
      (.obj [("title", .str "t")]) = "NO" :=
  conditional_missing_path_takes_else "post".data ["banner".data] "YES" "NO"
    (.obj [("title", .str "t")])
    ⟨by decide, by decide⟩ (by simp)
    (fun q hq => by
      rcases List.mem_cons.mp hq with rfl | hmem
      · exact ⟨by decide, by decide⟩
      · simp at hmem)
    (Or.inl rfl)

/-! ### Claim theorems: external link target attributes (C8) -/

theorem occursIn_nil_pat (s : List Char) : occursIn [] s = true := by
  cases s <;> simp [occursIn, startsList]

theorem occursIn_mono_left (p a b : List Char) (h : occursIn p a = true) :
    occursIn p (a ++ b) = true := by
  induction a with
  | nil =>
    cases p with
    | nil => simpa using occursIn_nil_pat b
    | cons q ps => simp [occursIn, startsList] at h
  | cons d as ih =>
    simp only [occursIn, Bool.or_eq_true] at h
    rcases h with hs | ho
    · simp only [List.cons_append, occursIn, Bool.or_eq_true]
      exact Or.inl (startsList_mono p (d :: as) b hs)
    · simp only [List.cons_append, occursIn, Bool.or_eq_true]
      exact Or.inr (ih ho)

/-- C8 counterexample: `ftp://example.com` starts with a URI scheme in
the sense of the claim, yet the rendered anchor carries no `target=`
attribute at all — the source only tests for the literal prefix
`http`. -/
theorem external_link_scheme_counterexample :
    specStartsWithUriScheme "ftp://example.com" = true ∧
    link (some "ftp://example.com") none "share" =
      "<a href=\"ftp://example.com\">share</a>" ∧
    occursIn ("target=".data) (link (some "ftp://example.com") none "share").data =
      false :=
  ⟨by decide, rfl, by decide⟩

/-- C8 amended: the rendered anchor contains the `target=` attribute
marker exactly when the link target starts with the literal prefix
`http` (`href.startsWith('http')`), not when it starts with an arbitrary
URI scheme; the hypotheses exclude link parts that smuggle in the
literal text `target=`. -/
theorem external_link_target_iff_http (href text : String) (title : Option String)
    (h1 : occursIn ("target=".data) href.data = false)
    (h2 : ∀ t, title = some t → occursIn ("target=".data) t.data = false)
    (h3 : occursIn ("target=".data) text.data = false) :
    occursIn ("target=".data) (link (some href) title text).data =
      jsStartsWith "http" href := by
  have hp : ("target=".data : List Char) ≠ [] := by decide
  have hq : ('"' : Char) ∉ "target=".data := by decide
  have hgt : ('>' : Char) ∉ "target=".data := by decide
  have hlt : ('<' : Char) ∉ "target=".data := by decide
  have hA : occursIn ("target=".data) ("<a href=".data) = false := by decide
  have hB : occursIn ("target=".data) ("/a>".data) = false := by decide
  have hT : occursIn ("target=".data) (" title=".data) = false := by decide
  have hE : occursIn ("target=".data) ([] : List Char) = false := by decide
  have hdata : (link (some href) title text).data =
      "<a href=".data ++ '"' :: (href.data ++ '"' ::
        ((titleAttr title).data ++ ((targetAttr href).data ++ '>' ::
          (text.data ++ '<' :: "/a>".data)))) := by
    show ("<a href=\"" ++ href ++ "\"" ++ titleAttr title ++ targetAttr href ++ ">"
        ++ text ++ "</a>").data = _
    simp only [String.data_append]
    simp [List.append_assoc, List.cons_append, List.singleton_append]
  rw [hdata]
  rw [occursIn_sep ("target=".data) _ '"' hp hq]
  rw [occursIn_sep ("target=".data) _ '"' hp hq]
  rw [hA, h1]
  simp only [Bool.false_or]
  cases hs : jsStartsWith "http" href with
  | true =>
    rw [show (targetAttr href).data =
        (" target=\"_blank\" rel=\"noopener noreferrer\"" : String).data from by
      unfold targetAttr
      rw [hs]
      rfl]
    apply occursIn_mono_right
    exact occursIn_mono_left _ _ _ (by decide)
  | false =>
    rw [show (targetAttr href).data = ([] : List Char) from by
      unfold targetAttr
      rw [hs]
      rfl]
    rw [List.nil_append]
    have hrest : occursIn ("target=".data) ('>' :: (text.data ++ '<' :: "/a>".data))
        = false := by
      rw [show ('>' :: (text.data ++ '<' :: "/a>".data)) =
          [] ++ '>' :: (text.data ++ '<' :: "/a>".data) from rfl]
      rw [occursIn_sep ("target=".data) _ '>' hp hgt]
      rw [occursIn_sep ("target=".data) _ '<' hp hlt]
      rw [hE, h3, hB]
      rfl
    cases title with
    | none =>
      rw [show (titleAttr none).data = ([] : List Char) from rfl, List.nil_append]
      exact hrest
    | some t =>
      by_cases ht : t = ""
      · rw [show (titleAttr (some t)).data = ([] : List Char) from by
          rw [ht]
          rfl]
        rw [List.nil_append]
        exact hrest
      · have htt : (titleAttr (some t)).data =
            " title=".data ++ '"' :: (t.data ++ ['"']) := by
          show ((if t ≠ "" then " title=\"" ++ t ++ "\"" else "") : String).data = _
          rw [if_pos ht]
          simp [String.data_append, List.append_assoc, List.cons_append,
            List.singleton_append]
        rw [htt]
        rw [show (" title=".data ++ '"' :: (t.data ++ ['"'])) ++
              '>' :: (text.data ++ '<' :: "/a>".data) =
            " title=".data ++ '"' :: (t.data ++ '"' ::
              ('>' :: (text.data ++ '<' :: "/a>".data))) from by
          simp [List.append_assoc]]
        rw [occursIn_sep ("target=".data) _ '"' hp hq]
        rw [occursIn_sep ("target=".data) _ '"' hp hq]
        rw [hT, h2 t rfl, hrest]
        rfl

theorem external_link_target_witness :
    occursIn ("target=".data) (link (some "https://example.com") none "share").data =
      true := by
  have h := external_link_target_iff_http "https://example.com" "share" none
    (by decide) (fun t ht => by cases ht) (by decide)
  rw [h]
  decide
